import Mathlib

/-!
Verification of the commit-history-to-notification pipeline of the
InjectiveLabs github-fe actions repository.

The JavaScript sources are shallowly embedded: pure functions become Lean
functions over `String` / `List Char`, JS numbers that the code guards to be
non-negative integers become `Nat` (the embedding works with exact integers;
IEEE-754 precision limits of JS numbers are outside the model), fallible code
returns `Except`/`Option`, and the specific regular expressions used by the
code are embedded as deterministic scanners that implement the JS regex
semantics (leftmost match, greedy quantifiers, global non-overlapping
replacement) for the concrete patterns appearing in the source.
-/

namespace GithubFe

/-! ## Character utilities -/

/-- ASCII digit test, the `\d` character class of JS regexes. -/
def isDigitCh (c : Char) : Bool := 48 ≤ c.toNat && c.toNat ≤ 57

/-- Whitespace skipped by JS `parseInt` (space, tab, LF, CR, VT, FF). -/
def jsWhitespace (c : Char) : Bool :=
  c.toNat = 32 || c.toNat = 9 || c.toNat = 10 || c.toNat = 13 ||
  c.toNat = 11 || c.toNat = 12

/-- Numeric value of an ASCII digit character. -/
def digitVal (c : Char) : Nat := c.toNat - 48

/-- ASCII digit character for a value below ten. -/
def digitChar (d : Nat) : Char :=
  if d = 0 then '0' else if d = 1 then '1' else if d = 2 then '2' else if d = 3 then '3'
  else if d = 4 then '4' else if d = 5 then '5' else if d = 6 then '6' else if d = 7 then '7'
  else if d = 8 then '8' else '9'

theorem digitChar_toNat (d : Nat) (hd : d ≤ 9) : (digitChar d).toNat = 48 + d := by
  interval_cases d <;> decide

theorem isDigitCh_digitChar (d : Nat) (hd : d ≤ 9) : isDigitCh (digitChar d) = true := by
  interval_cases d <;> decide

theorem digitVal_digitChar (d : Nat) (hd : d ≤ 9) : digitVal (digitChar d) = d := by
  interval_cases d <;> decide

theorem not_jsWhitespace_of_digit {c : Char} (h : isDigitCh c = true) :
    jsWhitespace c = false := by
  simp only [isDigitCh, Bool.and_eq_true, decide_eq_true_eq] at h
  simp only [jsWhitespace, Bool.or_eq_false_iff, decide_eq_false_iff_not]
  omega

theorem toNat_of_isDigitCh {c : Char} (h : isDigitCh c = true) :
    48 ≤ c.toNat ∧ c.toNat ≤ 57 := by
  simp only [isDigitCh, Bool.and_eq_true, decide_eq_true_eq] at h
  exact h

theorem ne_of_toNat_ne {c d : Char} (h : c.toNat ≠ d.toNat) : c ≠ d := by
  intro he
  exact h (he ▸ rfl)

theorem digit_ne_of_lt {c d : Char} (h : isDigitCh c = true)
    (hd : d.toNat < 48 ∨ 57 < d.toNat) : c ≠ d := by
  have := toNat_of_isDigitCh h
  exact ne_of_toNat_ne (by omega)

/-! ## Decimal rendering of natural numbers (JS template interpolation of an
integer-valued number). -/

/-- Decimal digit list of a natural number, most significant first. -/
def natChars (n : Nat) : List Char :=
  if h : n < 10 then [digitChar n]
  else natChars (n / 10) ++ [digitChar (n % 10)]
decreasing_by exact Nat.div_lt_self (by omega) (by omega)

/-- Decimal string of a natural number. -/
def natStr (n : Nat) : String := ⟨natChars n⟩

theorem natChars_ne_nil (n : Nat) : natChars n ≠ [] := by
  rw [natChars]
  split
  · simp
  · simp

theorem natChars_all_digit (n : Nat) : ∀ c ∈ natChars n, isDigitCh c = true := by
  induction n using Nat.strong_induction_on with
  | _ n ih =>
    rw [natChars]
    split
    · next h =>
      intro c hc
      simp only [List.mem_singleton] at hc
      subst hc
      exact isDigitCh_digitChar n (by omega)
    · next h =>
      intro c hc
      rw [List.mem_append] at hc
      rcases hc with hc | hc
      · exact ih (n / 10) (Nat.div_lt_self (by omega) (by omega)) c hc
      · simp only [List.mem_singleton] at hc
        subst hc
        exact isDigitCh_digitChar (n % 10) (by omega)

/-- Accumulating decimal parse used for a digit run. -/
def parseDigits (l : List Char) : Nat := l.foldl (fun a c => 10 * a + digitVal c) 0

theorem parseDigits_gen (l : List Char) (a : Nat) :
    l.foldl (fun a c => 10 * a + digitVal c) a =
      a * 10 ^ l.length + parseDigits l := by
  induction l generalizing a with
  | nil => simp [parseDigits]
  | cons c cs ih =>
    simp only [List.foldl_cons, parseDigits] at *
    rw [ih (10 * a + digitVal c), ih (10 * 0 + digitVal c)]
    simp only [List.length_cons, pow_succ]
    ring

theorem parseDigits_append (l : List Char) (c : Char) :
    parseDigits (l ++ [c]) = 10 * parseDigits l + digitVal c := by
  simp only [parseDigits, List.foldl_append, List.foldl_cons, List.foldl_nil]

theorem parseDigits_natChars (n : Nat) : parseDigits (natChars n) = n := by
  induction n using Nat.strong_induction_on with
  | _ n ih =>
    rw [natChars]
    split
    · next h =>
      simp [parseDigits, digitVal_digitChar n (by omega)]
    · next h =>
      rw [parseDigits_append, ih (n / 10) (Nat.div_lt_self (by omega) (by omega)),
        digitVal_digitChar (n % 10) (by omega)]
      omega

/-! ## JS parseInt with radix 10 -/

/-- Optional leading sign of a JS `parseInt` input. -/
def splitSign (l : List Char) : Int × List Char :=
  match l with
  | [] => (1, [])
  | c :: rest => if c = '-' then (-1, rest) else if c = '+' then (1, rest) else (1, c :: rest)

/-- Model of the JS `parseInt(s, 10)`: skip leading whitespace, read an
optional sign, then a maximal run of decimal digits; `none` models `NaN`. -/
def jsParseIntL (l : List Char) : Option Int :=
  let l1 := l.dropWhile jsWhitespace
  let sr := splitSign l1
  let ds := sr.2.takeWhile isDigitCh
  if ds = [] then none else some (sr.1 * (parseDigits ds : Nat))

/-- The JS `parseInt(s, 10)` applied to a Lean string. -/
def jsParseInt (s : String) : Option Int := jsParseIntL s.data

theorem splitSign_of_ne (c : Char) (cs : List Char) (hc : c ≠ '-') (hc2 : c ≠ '+') :
    splitSign (c :: cs) = (1, c :: cs) := by
  simp [splitSign, hc, hc2]

theorem jsParseIntL_natChars (n : Nat) : jsParseIntL (natChars n) = some (n : Int) := by
  have hall := natChars_all_digit n
  have hne := natChars_ne_nil n
  cases hl : natChars n with
  | nil => exact absurd hl hne
  | cons c cs =>
    have hcdig : isDigitCh c = true := hall c (by rw [hl]; exact List.mem_cons_self c cs)
    have hdrop : (c :: cs).dropWhile jsWhitespace = c :: cs := by
      rw [List.dropWhile_cons, not_jsWhitespace_of_digit hcdig]
      simp
    have hcm : c ≠ '-' := digit_ne_of_lt hcdig (by left; decide)
    have hcp : c ≠ '+' := digit_ne_of_lt hcdig (by left; decide)
    have htake : (c :: cs).takeWhile isDigitCh = c :: cs :=
      List.takeWhile_eq_self_iff.mpr (by rw [← hl]; exact hall)
    simp only [jsParseIntL, hdrop, splitSign_of_ne c cs hcm hcp, htake]
    rw [if_neg (by simp)]
    rw [← hl, parseDigits_natChars]
    simp

/-! ## The version.js module -/

/-- Parsed semantic version, `{ major, minor, patch, prefix }` in the source.
The components are guarded non-negative by `parseVersion`, so they are
carried as `Nat`. -/
structure ParsedVersion where
  major : Nat
  minor : Nat
  patch : Nat
  pfx : String
deriving DecidableEq, Repr

/-- JS `"a.b.c".split('.')` on char lists: split at every dot, keeping empty
segments. -/
def splitDot : List Char → List (List Char)
  | [] => [[]]
  | c :: cs =>
    if c = '.' then [] :: splitDot cs
    else
      match splitDot cs with
      | [] => [[c]]
      | p :: ps => (c :: p) :: ps

theorem splitDot_ne_nil (l : List Char) : splitDot l ≠ [] := by
  cases l with
  | nil => simp [splitDot]
  | cons c cs =>
    simp only [splitDot]
    split
    · simp
    · split
      · simp
      · simp

/-- Strip a single leading `v`, the optional version prefix. -/
def stripV (l : List Char) : List Char :=
  match l with
  | c :: rest => if c = 'v' then rest else c :: rest
  | [] => []

/-- Whether a char list starts with the literal `v` prefix. -/
def hasVPrefix (l : List Char) : Bool :=
  match l with
  | c :: _ => c = 'v'
  | [] => false

/-- Error message for a missing version string. -/
def errRequired : String := "Version string is required"

/-- Error message for a wrong number of dot-separated segments. -/
def errCount (v : String) : String :=
  "Invalid version format: " ++ v ++ ". Expected format: v1.2.3 or 1.2.3"

/-- Error message for non-numeric components. -/
def errNumbers (v : String) : String :=
  "Invalid version format: " ++ v ++ ". Version components must be numbers"

/-- Error message for negative components. -/
def errNonNeg (v : String) : String :=
  "Invalid version format: " ++ v ++ ". Version components must be non-negative"

/-- Embedding of `parseVersion` from `actions/shared/src/version.js`: reject
the empty string, strip an optional `v` prefix, split on `.`, require exactly
three segments, `parseInt` each, reject `NaN` and negative components. -/
def parseVersion (version : String) : Except String ParsedVersion :=
  if version.data = [] then .error errRequired
  else
    match splitDot (stripV version.data) with
    | [p1, p2, p3] =>
      match jsParseIntL p1, jsParseIntL p2, jsParseIntL p3 with
      | some major, some minor, some patch =>
        if major < 0 ∨ minor < 0 ∨ patch < 0 then .error (errNonNeg version)
        else .ok ⟨major.toNat, minor.toNat, patch.toNat,
          if hasVPrefix version.data then "v" else ""⟩
      | _, _, _ => .error (errNumbers version)
    | _ => .error (errCount version)

/-- Canonical serialized version tag `v<a>.<b>.<c>`, the template literal
used by the three increment functions. -/
def vstr (a b c : Nat) : String :=
  ⟨'v' :: (natChars a ++ '.' :: (natChars b ++ '.' :: natChars c))⟩

/-- Embedding of `incrementPatch`: parse, then bump the patch component. -/
def incrementPatch (version : String) : Except String String :=
  (parseVersion version).map (fun p => vstr p.major p.minor (p.patch + 1))

/-- Embedding of `incrementMinor`: parse, bump minor, reset patch. -/
def incrementMinor (version : String) : Except String String :=
  (parseVersion version).map (fun p => vstr p.major (p.minor + 1) 0)

/-- Embedding of `incrementMajor`: parse, bump major, reset minor and patch. -/
def incrementMajor (version : String) : Except String String :=
  (parseVersion version).map (fun p => vstr (p.major + 1) 0 0)

instance {ε α : Type} [DecidableEq ε] [DecidableEq α] : DecidableEq (Except ε α) := fun x y =>
  match x, y with
  | .ok a, .ok b =>
    if h : a = b then isTrue (by rw [h]) else isFalse (by intro he; injection he; exact h ‹_›)
  | .error a, .error b =>
    if h : a = b then isTrue (by rw [h]) else isFalse (by intro he; injection he; exact h ‹_›)
  | .ok _, .error _ => isFalse (by intro h; injection h)
  | .error _, .ok _ => isFalse (by intro h; injection h)

theorem splitDot_no_dot (l : List Char) (h : '.' ∉ l) : splitDot l = [l] := by
  induction l with
  | nil => rfl
  | cons c cs ih =>
    have hc : c ≠ '.' := fun he => h (he ▸ List.mem_cons_self c cs)
    have hcs : '.' ∉ cs := fun he => h (List.mem_cons_of_mem c he)
    simp only [splitDot, if_neg hc, ih hcs]

theorem splitDot_append (l rest : List Char) (h : '.' ∉ l) :
    splitDot (l ++ '.' :: rest) = l :: splitDot rest := by
  induction l with
  | nil => simp [splitDot]
  | cons c cs ih =>
    have hc : c ≠ '.' := fun he => h (he ▸ List.mem_cons_self c cs)
    have hcs : '.' ∉ cs := fun he => h (List.mem_cons_of_mem c he)
    simp only [List.cons_append, splitDot, if_neg hc, List.append_eq, ih hcs]

theorem natChars_no_dot (n : Nat) : '.' ∉ natChars n := by
  intro h
  have hd : isDigitCh '.' = true := natChars_all_digit n '.' h
  exact absurd hd (by decide)

/-- Round trip: the canonical serialized tag parses back to its components,
with the canonical `v` prefix. -/
theorem parseVersion_vstr (a b c : Nat) :
    parseVersion (vstr a b c) = .ok ⟨a, b, c, "v"⟩ := by
  have hdata : (vstr a b c).data =
      'v' :: (natChars a ++ '.' :: (natChars b ++ '.' :: natChars c)) := rfl
  have hne : (vstr a b c).data ≠ [] := by rw [hdata]; simp
  rw [parseVersion, if_neg hne, hdata]
  have hstrip : stripV ('v' :: (natChars a ++ '.' :: (natChars b ++ '.' :: natChars c))) =
      natChars a ++ '.' :: (natChars b ++ '.' :: natChars c) := by
    simp [stripV]
  rw [hstrip, splitDot_append _ _ (natChars_no_dot a),
    splitDot_append _ _ (natChars_no_dot b), splitDot_no_dot _ (natChars_no_dot c)]
  simp only [jsParseIntL_natChars]
  have hneg : ¬((a : Int) < 0 ∨ (b : Int) < 0 ∨ (c : Int) < 0) := by omega
  rw [if_neg hneg]
  simp [hasVPrefix, Int.toNat_natCast]

/-- C6 helper: success of `parseVersion` characterized by the shape of the
dot-split of the prefix-stripped input. -/
theorem parseVersion_characterization (version : String) (hne : version.data ≠ []) :
    (∀ p1 p2 p3, splitDot (stripV version.data) = [p1, p2, p3] →
      ((∀ q ∈ [p1, p2, p3], ∃ n : Int, jsParseIntL q = some n ∧ 0 ≤ n) →
        ∃ p, parseVersion version = .ok p) ∧
      ((jsParseIntL p1 = none ∨ jsParseIntL p2 = none ∨ jsParseIntL p3 = none) →
        parseVersion version = .error (errNumbers version)) ∧
      (∀ n1 n2 n3, jsParseIntL p1 = some n1 → jsParseIntL p2 = some n2 →
        jsParseIntL p3 = some n3 → (n1 < 0 ∨ n2 < 0 ∨ n3 < 0) →
        parseVersion version = .error (errNonNeg version))) ∧
    ((splitDot (stripV version.data)).length ≠ 3 →
      parseVersion version = .error (errCount version)) := by
  constructor
  · intro p1 p2 p3 hsplit
    refine ⟨?_, ?_, ?_⟩
    · intro hall
      obtain ⟨n1, hn1, hge1⟩ := hall p1 (by simp)
      obtain ⟨n2, hn2, hge2⟩ := hall p2 (by simp)
      obtain ⟨n3, hn3, hge3⟩ := hall p3 (by simp)
      refine ⟨⟨n1.toNat, n2.toNat, n3.toNat, if hasVPrefix version.data then "v" else ""⟩, ?_⟩
      rw [parseVersion, if_neg hne, hsplit]
      simp only [hn1, hn2, hn3]
      rw [if_neg (by omega)]
    · intro hnone
      rw [parseVersion, if_neg hne, hsplit]
      rcases h1 : jsParseIntL p1 with _ | n1 <;>
        rcases h2 : jsParseIntL p2 with _ | n2 <;>
        rcases h3 : jsParseIntL p3 with _ | n3 <;>
        simp_all
    · intro n1 n2 n3 h1 h2 h3 hneg
      rw [parseVersion, if_neg hne, hsplit]
      simp only [h1, h2, h3]
      rw [if_pos hneg]
  · intro hlen
    rw [parseVersion, if_neg hne]
    rcases hs : splitDot (stripV version.data) with _ | ⟨p1, t1⟩
    · exact absurd hs (splitDot_ne_nil _)
    · rcases t1 with _ | ⟨p2, t2⟩
      · rfl
      · rcases t2 with _ | ⟨p3, t3⟩
        · rfl
        · rcases t3 with _ | ⟨p4, t4⟩
          · rw [hs] at hlen; simp at hlen
          · rfl

/-- C6: `parseVersion` succeeds exactly when, after stripping an optional
leading `v`, the input splits on `.` into exactly three segments each
parsing (JS `parseInt` semantics) as a non-negative integer; each failure
class gets its own distinct descriptive message. -/
theorem parseVersion_claim (version : String) :
    ((∃ p, parseVersion version = .ok p) ↔
      (∃ p1 p2 p3, splitDot (stripV version.data) = [p1, p2, p3] ∧
        (∀ q ∈ [p1, p2, p3], ∃ n : Int, jsParseIntL q = some n ∧ 0 ≤ n))) ∧
    (version.data ≠ [] → (splitDot (stripV version.data)).length ≠ 3 →
      parseVersion version = .error (errCount version)) ∧
    (version.data ≠ [] → ∀ p1 p2 p3, splitDot (stripV version.data) = [p1, p2, p3] →
      (jsParseIntL p1 = none ∨ jsParseIntL p2 = none ∨ jsParseIntL p3 = none) →
      parseVersion version = .error (errNumbers version)) ∧
    (version.data ≠ [] → ∀ p1 p2 p3, splitDot (stripV version.data) = [p1, p2, p3] →
      ∀ n1 n2 n3, jsParseIntL p1 = some n1 → jsParseIntL p2 = some n2 →
        jsParseIntL p3 = some n3 → (n1 < 0 ∨ n2 < 0 ∨ n3 < 0) →
        parseVersion version = .error (errNonNeg version)) ∧
    (errCount version ≠ errNumbers version ∧ errNumbers version ≠ errNonNeg version ∧
      errCount version ≠ errNonNeg version) := by
  refine ⟨?_, ?_, ?_, ?_, ?_, ?_, ?_⟩
  · by_cases hemp : version.data = []
    · constructor
      · rintro ⟨p, hp⟩
        rw [parseVersion, if_pos hemp] at hp
        cases hp
      · rintro ⟨p1, p2, p3, hsplit, _⟩
        rw [hemp] at hsplit
        simp [stripV, splitDot] at hsplit
    · constructor
      · rintro ⟨p, hp⟩
        rcases hs : splitDot (stripV version.data) with _ | ⟨p1, t1⟩
        · exact absurd hs (splitDot_ne_nil _)
        rcases t1 with _ | ⟨p2, t2⟩
        · have he := (parseVersion_characterization version hemp).2 (by rw [hs]; simp)
          rw [he] at hp; cases hp
        rcases t2 with _ | ⟨p3, t3⟩
        · have he := (parseVersion_characterization version hemp).2 (by rw [hs]; simp)
          rw [he] at hp; cases hp
        rcases t3 with _ | ⟨p4, t4⟩
        · refine ⟨p1, p2, p3, rfl, ?_⟩
          have hchar := (parseVersion_characterization version hemp).1 p1 p2 p3 hs
          rcases h1 : jsParseIntL p1 with _ | n1
          · rw [hchar.2.1 (Or.inl h1)] at hp; cases hp
          rcases h2 : jsParseIntL p2 with _ | n2
          · rw [hchar.2.1 (Or.inr (Or.inl h2))] at hp; cases hp
          rcases h3 : jsParseIntL p3 with _ | n3
          · rw [hchar.2.1 (Or.inr (Or.inr h3))] at hp; cases hp
          by_cases hneg : n1 < 0 ∨ n2 < 0 ∨ n3 < 0
          · rw [hchar.2.2 n1 n2 n3 h1 h2 h3 hneg] at hp; cases hp
          · intro q hq
            simp only [List.mem_cons, List.not_mem_nil, or_false] at hq
            rcases hq with rfl | rfl | rfl
            · exact ⟨n1, h1, by omega⟩
            · exact ⟨n2, h2, by omega⟩
            · exact ⟨n3, h3, by omega⟩
        · have he := (parseVersion_characterization version hemp).2 (by rw [hs]; simp)
          rw [he] at hp; cases hp
      · rintro ⟨p1, p2, p3, hsplit, hall⟩
        exact ((parseVersion_characterization version hemp).1 p1 p2 p3 hsplit).1 hall
  · intro hne hlen
    exact (parseVersion_characterization version hne).2 hlen
  · intro hne p1 p2 p3 hsplit hnone
    exact ((parseVersion_characterization version hne).1 p1 p2 p3 hsplit).2.1 hnone
  · intro hne p1 p2 p3 hsplit n1 n2 n3 h1 h2 h3 hneg
    exact ((parseVersion_characterization version hne).1 p1 p2 p3 hsplit).2.2 n1 n2 n3 h1 h2 h3 hneg
  · intro h
    have hl := congrArg String.length h
    simp only [errCount, errNumbers, String.length_append] at hl
    have hd : (". Expected format: v1.2.3 or 1.2.3" : String).length ≠
        (". Version components must be numbers" : String).length := by decide
    omega
  · intro h
    have hl := congrArg String.length h
    simp only [errNumbers, errNonNeg, String.length_append] at hl
    have hd : (". Version components must be numbers" : String).length ≠
        (". Version components must be non-negative" : String).length := by decide
    omega
  · intro h
    have hl := congrArg String.length h
    simp only [errCount, errNonNeg, String.length_append] at hl
    have hd : (". Expected format: v1.2.3 or 1.2.3" : String).length ≠
        (". Version components must be non-negative" : String).length := by decide
    omega

/-- C6 witness: a well-formed tag parses; a two-segment tag fails with the
segment-count message. -/
theorem parseVersion_claim_witness :
    (∃ p, parseVersion "v1.2.3" = .ok p) ∧
    parseVersion "v1.2" = .error (errCount "v1.2") := by
  constructor
  · exact (parseVersion_claim "v1.2.3").1.mpr
      ⟨['1'], ['2'], ['3'], by decide, by decide⟩
  · exact (parseVersion_claim "v1.2").2.1 (by decide) (by decide)

/-- C7: incrementing at patch level adds one to the patch component leaving
major and minor unchanged, minor level adds one to minor and resets patch,
major level adds one to major and resets minor and patch, and all three
outputs carry the `v` prefix whether or not the input had one. -/
theorem increment_claim (v : String) (p : ParsedVersion) (h : parseVersion v = .ok p) :
    incrementPatch v = .ok (vstr p.major p.minor (p.patch + 1)) ∧
    parseVersion (vstr p.major p.minor (p.patch + 1)) =
      .ok ⟨p.major, p.minor, p.patch + 1, "v"⟩ ∧
    hasVPrefix (vstr p.major p.minor (p.patch + 1)).data = true ∧
    incrementMinor v = .ok (vstr p.major (p.minor + 1) 0) ∧
    parseVersion (vstr p.major (p.minor + 1) 0) = .ok ⟨p.major, p.minor + 1, 0, "v"⟩ ∧
    hasVPrefix (vstr p.major (p.minor + 1) 0).data = true ∧
    incrementMajor v = .ok (vstr (p.major + 1) 0 0) ∧
    parseVersion (vstr (p.major + 1) 0 0) = .ok ⟨p.major + 1, 0, 0, "v"⟩ ∧
    hasVPrefix (vstr (p.major + 1) 0 0).data = true := by
  refine ⟨?_, parseVersion_vstr _ _ _, rfl, ?_, parseVersion_vstr _ _ _, rfl, ?_,
    parseVersion_vstr _ _ _, rfl⟩
  · rw [incrementPatch, h]; rfl
  · rw [incrementMinor, h]; rfl
  · rw [incrementMajor, h]; rfl

/-- C7 witness: `1.17.12` (no prefix) increments to the prefixed `v1.17.13`,
which parses back to `(1, 17, 13)`. -/
theorem increment_claim_witness :
    incrementPatch "1.17.12" = .ok "v1.17.13" ∧
    parseVersion "v1.17.13" = .ok ⟨1, 17, 13, "v"⟩ := by
  have h := increment_claim "1.17.12" ⟨1, 17, 12, ""⟩ (by decide)
  have hv : vstr 1 17 13 = "v1.17.13" := by simp [vstr, natChars, digitChar]
  constructor
  · rw [h.1, hv]
  · rw [← hv]
    exact h.2.1

/-! ## Commits and the formatting.js module -/

/-- Commit record produced by the git log queries: full hash, Unix timestamp
(seconds), single-line subject, author name and email. -/
structure Commit where
  hash : String
  timestamp : Nat
  message : String
  authorName : String
  authorEmail : String
deriving DecidableEq, Repr

/-- ASCII lower-casing of a character, for the `/i` regex flag. -/
def lowerCh (c : Char) : Char :=
  if 65 ≤ c.toNat ∧ c.toNat ≤ 90 then Char.ofNat (c.toNat + 32) else c

/-- Case-insensitive literal matcher: `pat` is given lower-case; on success
returns the input remainder. -/
def matchLitCI : List Char → List Char → Option (List Char)
  | [], l => some l
  | _ :: _, [] => none
  | p :: ps, c :: cs => if lowerCh c = p then matchLitCI ps cs else none

/-- Word characters, the `\w` regex class. -/
def isWordCh (c : Char) : Bool :=
  isDigitCh c || (65 ≤ c.toNat && c.toNat ≤ 90) || (97 ≤ c.toNat && c.toNat ≤ 122) ||
    c.toNat = 95

/-- Matcher for `^Merge pull request #\d+ from ` (case-insensitive), shared
prefix of the PR-merge and dev-merge patterns; returns the remainder after
` from `. -/
def prMergePrefix (l : List Char) : Option (List Char) :=
  match matchLitCI "merge pull request #".data l with
  | none => none
  | some r1 =>
    let ds := r1.takeWhile isDigitCh
    if ds = [] then none
    else matchLitCI " from ".data (r1.drop ds.length)

/-- Embedding of `isPRMergeCommit`: subject matches
`/^Merge pull request #\d+ from /i`. -/
def isPRMergeCommit (c : Commit) : Bool :=
  (prMergePrefix c.message.data).isSome

/-- Embedding of `isDevToMasterMerge`: subject matches
`/^Merge pull request #\d+ from [^/]+\/dev$/i`. -/
def isDevToMasterMerge (c : Commit) : Bool :=
  match prMergePrefix c.message.data with
  | none => false
  | some r2 =>
    let owner := r2.takeWhile (fun ch => ch ≠ '/')
    if owner = [] then false
    else
      match matchLitCI "/dev".data (r2.drop owner.length) with
      | some [] => true
      | _ => false

/-- Embedding of `isBranchMergeCommit`: subject matches
`/^Merge branch ['"]?\w+['"]? into /i`. -/
def isBranchMergeCommit (c : Commit) : Bool :=
  match matchLitCI "merge branch ".data c.message.data with
  | none => false
  | some r1 =>
    let r2 := match r1 with
      | q :: rest => if q = '\'' ∨ q = '"' then rest else q :: rest
      | [] => []
    let ws := r2.takeWhile isWordCh
    if ws = [] then false
    else
      let r3 := r2.drop ws.length
      let r4 := match r3 with
        | q :: rest => if q = '\'' ∨ q = '"' then rest else q :: rest
        | [] => []
      (matchLitCI " into ".data r4).isSome

/-- Loop of `filterOldMergeCommits`: the boolean accumulator is the
`foundFirstDevMerge` closure variable of the source. -/
def filterOldMergeCommitsGo : List Commit → Bool → List Commit
  | [], _ => []
  | c :: cs, found =>
    if isDevToMasterMerge c then
      if found then filterOldMergeCommitsGo cs found
      else c :: filterOldMergeCommitsGo cs true
    else c :: filterOldMergeCommitsGo cs found

/-- Embedding of `filterOldMergeCommits`: keep everything except
dev-to-master merges after the first one. -/
def filterOldMergeCommits (commits : List Commit) : List Commit :=
  filterOldMergeCommitsGo commits false

/-- The backtick character (spelled by code point). -/
def backtickCh : Char := Char.ofNat 96

/-- Replace every occurrence of a character by a character list. -/
def replaceAllCh (t : Char) (r : List Char) (l : List Char) : List Char :=
  l.flatMap (fun c => if c = t then r else [c])

/-- Embedding of `escapeCommitMessage`: backslash-escape backticks and
double quotes, nothing else. -/
def escapeCommitMessage (message : String) : String :=
  ⟨replaceAllCh '"' ['\\', '"'] (replaceAllCh backtickCh ['\\', backtickCh] message.data)⟩

/-- Leading `\d+\+` of the GitHub noreply email pattern: maximal leading
digit run followed by a literal plus. -/
def splitLeadingDigitsPlus (l : List Char) : Option (List Char) :=
  let ds := l.takeWhile isDigitCh
  if ds = [] then none
  else
    match l.drop ds.length with
    | '+' :: rest => some rest
    | _ => none

/-- Match `([^@]+)@users\.noreply\.github\.com$` (case-insensitive domain)
at the start of `l`, returning the captured user name. -/
def tryNoReplyAt (l : List Char) : Option (List Char) :=
  let u := l.takeWhile (fun c => c ≠ '@')
  if u = [] then none
  else
    match matchLitCI "@users.noreply.github.com".data (l.drop u.length) with
    | some [] => some u
    | _ => none

/-- Full noreply matcher `/^(?:\d+\+)?([^@]+)@users\.noreply\.github\.com$/i`:
prefer consuming the optional `\d+\+` prefix, backtracking to the plain
capture when the rest cannot match (JS regex backtracking on `(?:...)?`). -/
def noReplyUser (l : List Char) : Option (List Char) :=
  match splitLeadingDigitsPlus l with
  | some rest =>
    match tryNoReplyAt rest with
    | some u => some u
    | none => tryNoReplyAt l
  | none => tryNoReplyAt l

/-- Embedding of `formatGitAuthor`: noreply emails render as `@username`,
space-free names render as `@name`, otherwise `name (email)` when an email
is present. -/
def formatGitAuthor (authorName authorEmail : String) : String :=
  if authorName.data = [] then "unknown"
  else
    match noReplyUser authorEmail.data with
    | some u => "@" ++ (⟨u⟩ : String)
    | none =>
      if authorName.data.contains ' ' then
        if authorEmail.data = [] then authorName
        else authorName ++ " (" ++ authorEmail ++ ")"
      else "@" ++ authorName

/-- Scanner of `extractPRNumber`: first `#(\d+)` occurrence. -/
def extractPRGo : List Char → Option (List Char)
  | [] => none
  | c :: rest =>
    if c = '#' then
      let ds := rest.takeWhile isDigitCh
      if ds = [] then extractPRGo rest else some ds
    else extractPRGo rest

/-- Embedding of `extractPRNumber`: digits of the first `#<digits>` in the
message, or `none`. -/
def extractPRNumber (message : String) : Option String :=
  (extractPRGo message.data).map (fun ds => (⟨ds⟩ : String))

/-- Embedding of `formatCommitLine`: bullet with commit link, escaped
subject, resolved author and optional PR link. -/
def formatCommitLine (commit : Commit) (repoUrl : String) : String :=
  let shortHash : String := ⟨commit.hash.data.take 7⟩
  let commitLink := "[" ++ shortHash ++ "](" ++ repoUrl ++ "/commit/" ++ commit.hash ++ ")"
  let prInfo := match extractPRNumber commit.message with
    | some pr => " in [#" ++ pr ++ "](" ++ repoUrl ++ "/pull/" ++ pr ++ ")"
    | none => ""
  "- " ++ commitLink ++ " - " ++ escapeCommitMessage commit.message ++ " by " ++
    formatGitAuthor commit.authorName commit.authorEmail ++ prInfo

/-- JS `Array.prototype.join('\n')`. -/
def joinLines (l : List String) : String :=
  match l with
  | [] => ""
  | x :: xs => xs.foldl (fun a s => a ++ "\n" ++ s) x

/-- Embedding of `formatReleaseNotes` (actions/shared/src/formatting.js):
null/empty input and empty filtered list yield the sentinel, otherwise the
joined rendered lines. `none` models a JS null/undefined commits argument. -/
def formatReleaseNotes (commits : Option (List Commit)) (repoUrl : String) : String :=
  match commits with
  | none => "No new commits"
  | some cs =>
    if cs = [] then "No new commits"
    else
      let filteredCommits := filterOldMergeCommits cs
      if filteredCommits = [] then "No new commits"
      else joinLines (filteredCommits.map (fun c => formatCommitLine c repoUrl))

theorem filterGo_true (l : List Commit) :
    filterOldMergeCommitsGo l true = l.filter (fun c => !(isDevToMasterMerge c)) := by
  induction l with
  | nil => rfl
  | cons c cs ih =>
    by_cases hc : isDevToMasterMerge c = true
    · simp [filterOldMergeCommitsGo, hc, ih, List.filter_cons]
    · simp only [Bool.not_eq_true] at hc
      simp [filterOldMergeCommitsGo, hc, ih, List.filter_cons]

/-- C3: with at least one dev-to-master merge present, the filter keeps the
first such merge and every non-dev-merge commit, in order, and nothing
else. -/
theorem filterOldMergeCommits_claim (l : List Commit)
    (hN : 0 < (l.filter (fun c => isDevToMasterMerge c)).length) :
    (filterOldMergeCommits l).length =
      (l.filter (fun c => !(isDevToMasterMerge c))).length + 1 ∧
    (filterOldMergeCommits l).filter (fun c => isDevToMasterMerge c) =
      (l.filter (fun c => isDevToMasterMerge c)).take 1 ∧
    (filterOldMergeCommits l).filter (fun c => !(isDevToMasterMerge c)) =
      l.filter (fun c => !(isDevToMasterMerge c)) ∧
    (filterOldMergeCommits l).Sublist l := by
  unfold filterOldMergeCommits
  induction l with
  | nil => simp at hN
  | cons c cs ih =>
    by_cases hc : isDevToMasterMerge c = true
    · simp only [filterOldMergeCommitsGo, hc, if_true, if_false, filterGo_true]
      refine ⟨?_, ?_, ?_, ?_⟩
      · simp [List.filter_cons, hc]
      · simp [List.filter_cons, hc, List.filter_filter]
      · simp [List.filter_cons, hc, List.filter_filter]
      · exact List.Sublist.cons₂ c (List.filter_sublist cs)
    · simp only [Bool.not_eq_true] at hc
      have hN' : 0 < (cs.filter (fun c => isDevToMasterMerge c)).length := by
        rw [List.filter_cons] at hN
        simpa [hc] using hN
      obtain ⟨ih1, ih2, ih3, ih4⟩ := ih hN'
      simp only [filterOldMergeCommitsGo, hc, if_false]
      refine ⟨?_, ?_, ?_, ?_⟩
      · simp [List.filter_cons, hc, ih1]
      · simp [List.filter_cons, hc, ih2]
      · simp [List.filter_cons, hc, ih3]
      · exact List.Sublist.cons₂ c ih4

/-- Sample commits for the C3 witness: two dev-to-master merges interleaved
with a plain commit, a feature-branch PR merge and a generic branch merge. -/
def c3Demo : List Commit :=
  [⟨"a1", 10, "Merge pull request #100 from InjectiveLabs/dev", "a", "a@x"⟩,
   ⟨"a2", 11, "fix: something", "b", "b@x"⟩,
   ⟨"a3", 12, "Merge pull request #99 from InjectiveLabs/dev", "c", "c@x"⟩,
   ⟨"a4", 13, "Merge pull request #98 from InjectiveLabs/feat/shiny", "d", "d@x"⟩,
   ⟨"a5", 14, "Merge branch 'dev' into feat/shiny", "e", "e@x"⟩]

/-- C3 witness: on the sample list (two dev merges, three other commits)
the filter returns four commits, `M + 1` with `M = 3`. -/
theorem filterOldMergeCommits_claim_witness :
    (filterOldMergeCommits c3Demo).length = 4 := by
  exact ((filterOldMergeCommits_claim c3Demo (by decide)).1).trans (by decide)

theorem filterGo_head (l : List Commit) (b : Bool) (h : l ≠ []) (hb : b = false) :
    (filterOldMergeCommitsGo l b).head? = l.head? := by
  cases l with
  | nil => exact absurd rfl h
  | cons c cs =>
    subst hb
    by_cases hc : isDevToMasterMerge c = true
    · simp [filterOldMergeCommitsGo, hc]
    · simp only [Bool.not_eq_true] at hc
      simp [filterOldMergeCommitsGo, hc]

theorem joinLines_data (x : String) (xs : List String) :
    ∃ t, (joinLines (x :: xs)).data = x.data ++ t := by
  suffices h : ∀ (xs : List String) (a : String),
      ∃ t, (xs.foldl (fun a s => a ++ "\n" ++ s) a).data = a.data ++ t by
    exact h xs x
  intro xs
  induction xs with
  | nil => intro a; exact ⟨[], by simp⟩
  | cons y ys ih =>
    intro a
    obtain ⟨t, ht⟩ := ih (a ++ "\n" ++ y)
    refine ⟨"\n".data ++ y.data ++ t, ?_⟩
    simp only [List.foldl_cons, ht, String.data_append]
    simp

/-- C10: the filter always keeps the head of a non-empty list, so
`formatReleaseNotes` returns the sentinel exactly on null/empty input and
its empty-after-filter branch is unreachable for non-empty input. -/
theorem formatReleaseNotes_sentinel_claim :
    (∀ l : List Commit, l ≠ [] →
      filterOldMergeCommits l ≠ [] ∧ (filterOldMergeCommits l).head? = l.head?) ∧
    (∀ (commits : Option (List Commit)) (repoUrl : String),
      formatReleaseNotes commits repoUrl = "No new commits" ↔
        (commits = none ∨ commits = some [])) := by
  have hhead : ∀ l : List Commit, l ≠ [] →
      filterOldMergeCommits l ≠ [] ∧ (filterOldMergeCommits l).head? = l.head? := by
    intro l hl
    have h := filterGo_head l false hl rfl
    constructor
    · intro hnil
      unfold filterOldMergeCommits at hnil
      rw [hnil] at h
      cases l with
      | nil => exact hl rfl
      | cons c cs => simp at h
    · exact h
  refine ⟨hhead, ?_⟩
  intro commits repoUrl
  cases commits with
  | none => simp [formatReleaseNotes]
  | some cs =>
    cases hcs : cs == [] with
    | true =>
      have : cs = [] := by simpa using hcs
      subst this
      simp [formatReleaseNotes]
    | false =>
      have hne : cs ≠ [] := by simpa using hcs
      have ⟨hfne, _⟩ := hhead cs hne
      rw [formatReleaseNotes]
      rw [if_neg hne, if_neg hfne]
      constructor
      · intro hj
        exfalso
        rcases hfc : filterOldMergeCommits cs with _ | ⟨c0, crest⟩
        · exact hfne hfc
        · rw [hfc] at hj
          simp only [List.map_cons] at hj
          obtain ⟨t, ht⟩ := joinLines_data (formatCommitLine c0 repoUrl)
            (crest.map (fun c => formatCommitLine c repoUrl))
          have hdata := congrArg String.data hj
          rw [ht] at hdata
          have hline : (formatCommitLine c0 repoUrl).data =
              '-' :: ' ' :: (("[" ++ (⟨c0.hash.data.take 7⟩ : String) ++ "](" ++ repoUrl ++
                "/commit/" ++ c0.hash ++ ")" ++ " - " ++ escapeCommitMessage c0.message ++
                " by " ++ formatGitAuthor c0.authorName c0.authorEmail ++
                (match extractPRNumber c0.message with
                  | some pr => " in [#" ++ pr ++ "](" ++ repoUrl ++ "/pull/" ++ pr ++ ")"
                  | none => "")).data) := by
            rw [formatCommitLine]
            simp only [String.data_append]
            rfl
          rw [hline] at hdata
          simp only [List.cons_append] at hdata
          have : '-' = 'N' := by
            have := congrArg List.head? hdata
            simpa using this
          exact absurd this (by decide)
      · rintro (h | h)
        · cases h
        · exfalso
          exact hne (by injection h)

/-- C10 witness: a singleton plain commit survives the filter and renders a
non-sentinel release note. -/
theorem formatReleaseNotes_sentinel_claim_witness :
    filterOldMergeCommits [⟨"h1", 1, "fix: x", "n", "e"⟩] ≠ [] ∧
    formatReleaseNotes (some [⟨"h1", 1, "fix: x", "n", "e"⟩]) "https://r" ≠
      "No new commits" := by
  have h := formatReleaseNotes_sentinel_claim
  refine ⟨(h.1 [⟨"h1", 1, "fix: x", "n", "e"⟩] (by decide)).1, ?_⟩
  intro he
  have := (h.2 (some [⟨"h1", 1, "fix: x", "n", "e"⟩]) "https://r").mp he
  rcases this with hh | hh
  · cases hh
  · have : ([⟨"h1", 1, "fix: x", "n", "e"⟩] : List Commit) = [] := by injection hh
    cases this

/-! ## DialectConverter: convertMarkdownToSlack -/

/-- Consume one expected literal character. -/
def expectCh (x : Char) : List Char → Option (List Char)
  | [] => none
  | c :: cs => if c = x then some cs else none

theorem expectCh_some {x : Char} {l r : List Char} : expectCh x l = some r ↔ l = x :: r := by
  cases l with
  | nil => simp [expectCh]
  | cons c cs =>
    simp only [expectCh]
    by_cases hc : c = x
    · subst hc; simp
    · simp [hc, Ne.symm hc]

/-- Consume a non-empty maximal run of characters satisfying `p` (the greedy
`X+` of a regex character class), returning the run and the remainder. -/
def takeNonEmpty (p : Char → Bool) (l : List Char) : Option (List Char × List Char) :=
  let t := l.takeWhile p
  if t = [] then none else some (t, l.drop t.length)

theorem takeWhile_middle (p : Char → Bool) (l : List Char) (x : Char) (r : List Char)
    (hl : ∀ c ∈ l, p c = true) (hx : p x = false) :
    (l ++ x :: r).takeWhile p = l := by
  induction l with
  | nil => simp [List.takeWhile_cons, hx]
  | cons c cs ih =>
    rw [List.cons_append, List.takeWhile_cons, hl c (List.mem_cons_self c cs),
      ih (fun d hd => hl d (List.mem_cons_of_mem c hd))]
    simp

theorem takeNonEmpty_some {p : Char → Bool} {l t s : List Char}
    (h : takeNonEmpty p l = some (t, s)) :
    t = l.takeWhile p ∧ s = l.drop t.length ∧ t ≠ [] := by
  rw [takeNonEmpty] at h
  by_cases ht : l.takeWhile p = []
  · rw [if_pos ht] at h; cases h
  · rw [if_neg ht] at h
    injection h with h
    injection h with h1 h2
    subst h1
    exact ⟨rfl, h2.symm, ht⟩

theorem takeNonEmpty_mid (p : Char → Bool) (t : List Char) (x : Char) (r : List Char)
    (ht : t ≠ []) (hall : ∀ c ∈ t, p c = true) (hx : p x = false) :
    takeNonEmpty p (t ++ x :: r) = some (t, x :: r) := by
  rw [takeNonEmpty]
  simp only [takeWhile_middle p t x r hall hx]
  rw [if_neg ht, List.drop_left]

/-- Match the regex `\[([^\]]+)\]\(([^)]+)\)` at the start of the input,
returning the captured label and url and the remainder. -/
def mdMatchAt (l : List Char) : Option (List Char × List Char × List Char) :=
  (expectCh '[' l).bind (fun r1 =>
  (takeNonEmpty (fun ch => ch ≠ ']') r1).bind (fun x =>
  (expectCh ']' x.2).bind (fun r2 =>
  (expectCh '(' r2).bind (fun r3 =>
  (takeNonEmpty (fun ch => ch ≠ ')') r3).bind (fun y =>
  (expectCh ')' y.2).map (fun r4 => (x.1, y.1, r4)))))))

theorem mdMatchAt_lt {l : List Char} {lab url rest : List Char}
    (h : mdMatchAt l = some (lab, url, rest)) : rest.length < l.length := by
  rw [mdMatchAt] at h
  simp only [Option.bind_eq_some, Option.map_eq_some'] at h
  obtain ⟨r1, hE1, x, hT1, r2, hE2, r3, hE3, y, hT2, r4, hE4, heq⟩ := h
  rw [expectCh_some] at hE1 hE2 hE3 hE4
  obtain ⟨ht1, hs1, -⟩ := takeNonEmpty_some hT1
  obtain ⟨ht2, hs2, -⟩ := takeNonEmpty_some hT2
  rw [Prod.mk.injEq, Prod.mk.injEq] at heq
  obtain ⟨he1, he2, he3⟩ := heq
  have hE4r : y.2 = ')' :: rest := by rw [hE4, he3]
  have l1 : r1.length < l.length := by rw [hE1]; simp
  have l2 : x.2.length ≤ r1.length := by rw [hs1]; simp
  have l3 : r2.length < x.2.length := by rw [hE2]; simp
  have l4 : r3.length < r2.length := by rw [hE3]; simp
  have l5 : y.2.length ≤ r3.length := by rw [hs2]; simp
  have l6 : rest.length < y.2.length := by rw [hE4r]; simp
  omega

/-- Global non-overlapping replacement scanner of `convertMarkdownToSlack`. -/
def mdConvertGo (l : List Char) : List Char :=
  match l with
  | [] => []
  | c :: cs =>
    match h : mdMatchAt (c :: cs) with
    | some (lab, url, rest) =>
      '<' :: (url ++ '|' :: (lab ++ '>' :: mdConvertGo rest))
    | none => c :: mdConvertGo cs
termination_by l.length
decreasing_by
  · exact mdMatchAt_lt h
  · simp

theorem mdConvertGo_nil : mdConvertGo [] = [] := by rw [mdConvertGo]

theorem mdConvertGo_some {c : Char} {cs lab url rest : List Char}
    (h : mdMatchAt (c :: cs) = some (lab, url, rest)) :
    mdConvertGo (c :: cs) = '<' :: (url ++ '|' :: (lab ++ '>' :: mdConvertGo rest)) := by
  rw [mdConvertGo]
  split
  · next lab2 url2 rest2 heq =>
    rw [heq] at h
    injection h with h
    injection h with h1 h2
    injection h2 with h2 h3
    rw [h1, h2, h3]
  · next heq =>
    rw [heq] at h
    cases h

theorem mdConvertGo_none {c : Char} {cs : List Char} (h : mdMatchAt (c :: cs) = none) :
    mdConvertGo (c :: cs) = c :: mdConvertGo cs := by
  rw [mdConvertGo]
  split
  · next lab2 url2 rest2 heq =>
    rw [heq] at h
    cases h
  · rfl

/-- Whether the markdown-link pattern matches anywhere in the input. -/
def hasMdLink : List Char → Bool
  | [] => false
  | c :: cs => (mdMatchAt (c :: cs)).isSome || hasMdLink cs

/-- Embedding of `convertMarkdownToSlack`: replace every `[label](url)` with
`<url|label>`; falsy input yields the empty string. -/
def convertMarkdownToSlack (text : String) : String := ⟨mdConvertGo text.data⟩

theorem mdConvertGo_no_link (l : List Char) (h : hasMdLink l = false) :
    mdConvertGo l = l := by
  induction l with
  | nil => exact mdConvertGo_nil
  | cons c cs ih =>
    rw [hasMdLink, Bool.or_eq_false_iff] at h
    rcases hm : mdMatchAt (c :: cs) with _ | ⟨lab, url, rest⟩
    · rw [mdConvertGo_none hm, ih h.2]
    · rw [hm] at h
      simp at h

theorem mdMatchAt_none_of_ne {c : Char} (cs : List Char) (h : c ≠ '[') :
    mdMatchAt (c :: cs) = none := by
  rw [mdMatchAt]
  rw [show expectCh '[' (c :: cs) = none from by simp [expectCh, h]]
  rfl

theorem mdMatchAt_link (lab url b : List Char)
    (hlab : lab ≠ []) (hlabc : ']' ∉ lab) (hurl : url ≠ []) (hurlc : ')' ∉ url) :
    mdMatchAt ('[' :: (lab ++ ']' :: '(' :: (url ++ ')' :: b))) = some (lab, url, b) := by
  have hl1 : ∀ c ∈ lab, (fun ch : Char => decide (ch ≠ ']')) c = true := by
    intro c hc
    simp only [decide_eq_true_eq]
    exact fun he => hlabc (he ▸ hc)
  have hl2 : ∀ c ∈ url, (fun ch : Char => decide (ch ≠ ')')) c = true := by
    intro c hc
    simp only [decide_eq_true_eq]
    exact fun he => hurlc (he ▸ hc)
  rw [mdMatchAt]
  rw [show expectCh '[' ('[' :: (lab ++ ']' :: '(' :: (url ++ ')' :: b))) =
    some (lab ++ ']' :: '(' :: (url ++ ')' :: b)) from by simp [expectCh]]
  rw [Option.some_bind]
  rw [takeNonEmpty_mid _ lab ']' _ hlab hl1 (by simp)]
  rw [Option.some_bind]
  rw [show expectCh ']' (']' :: '(' :: (url ++ ')' :: b)) =
    some ('(' :: (url ++ ')' :: b)) from by simp [expectCh]]
  rw [Option.some_bind]
  rw [show expectCh '(' ('(' :: (url ++ ')' :: b)) = some (url ++ ')' :: b) from by
    simp [expectCh]]
  rw [Option.some_bind]
  rw [takeNonEmpty_mid _ url ')' _ hurl hl2 (by simp)]
  rw [Option.some_bind]
  rw [show expectCh ')' (')' :: b) = some b from by simp [expectCh]]
  rfl

theorem mdConvertGo_pfx (a tail : List Char) (ha : '[' ∉ a) :
    mdConvertGo (a ++ tail) = a ++ mdConvertGo tail := by
  induction a with
  | nil => simp
  | cons c cs ih =>
    have hc : c ≠ '[' := fun he => ha (he ▸ List.mem_cons_self c cs)
    have hcs : '[' ∉ cs := fun he => ha (List.mem_cons_of_mem c he)
    rw [List.cons_append, mdConvertGo_none (mdMatchAt_none_of_ne _ hc), ih hcs]
    simp

/-- C8: `convertMarkdownToSlack` is the identity on text without a
`[label](url)` occurrence (including the sentinel and the empty string), and
rewrites every occurrence `[label](url)` to `<url|label>`, leaving the
surrounding text unchanged and continuing on the remainder. -/
theorem convertMarkdownToSlack_claim :
    (∀ s : String, hasMdLink s.data = false → convertMarkdownToSlack s = s) ∧
    convertMarkdownToSlack "No new commits" = "No new commits" ∧
    convertMarkdownToSlack "" = "" ∧
    (∀ a lab url b : String,
      '[' ∉ a.data → lab.data ≠ [] → ']' ∉ lab.data → url.data ≠ [] → ')' ∉ url.data →
      convertMarkdownToSlack (a ++ "[" ++ lab ++ "](" ++ url ++ ")" ++ b) =
        a ++ "<" ++ url ++ "|" ++ lab ++ ">" ++ convertMarkdownToSlack b) := by
  have hid : ∀ s : String, hasMdLink s.data = false → convertMarkdownToSlack s = s := by
    intro s h
    have : (convertMarkdownToSlack s).data = s.data := by
      rw [convertMarkdownToSlack]
      exact mdConvertGo_no_link s.data h
    cases s
    simp only [convertMarkdownToSlack] at *
    rw [this]
  refine ⟨hid, hid _ (by decide), hid _ (by decide), ?_⟩
  intro a lab url b ha hlab hlabc hurl hurlc
  have hdata : (a ++ "[" ++ lab ++ "](" ++ url ++ ")" ++ b).data =
      a.data ++ ('[' :: (lab.data ++ ']' :: '(' :: (url.data ++ ')' :: b.data))) := by
    simp only [String.data_append]
    simp
  apply String.ext
  simp only [convertMarkdownToSlack, hdata]
  rw [mdConvertGo_pfx _ _ ha]
  rw [mdConvertGo_some (mdMatchAt_link lab.data url.data b.data hlab hlabc hurl hurlc)]
  simp only [String.data_append]
  simp

/-- C8 witness: a concrete link inside surrounding text is rewritten in
place. -/
theorem convertMarkdownToSlack_claim_witness :
    convertMarkdownToSlack "see [docs](https://x) tail" = "see <https://x|docs> tail" := by
  have h := convertMarkdownToSlack_claim.2.2.2 "see " "docs" "https://x" " tail"
    (by decide) (by decide) (by decide) (by decide) (by decide)
  have he : ("see [docs](https://x) tail" : String) =
      "see " ++ "[" ++ "docs" ++ "](" ++ "https://x" ++ ")" ++ " tail" := by decide
  rw [he, h]
  have ht : convertMarkdownToSlack " tail" = " tail" :=
    convertMarkdownToSlack_claim.1 " tail" (by decide)
  rw [ht]
  decide

/-! ## Author formatting (C9) -/

/-- C9 counterexample: with a spaced name and an empty email the code
renders just the name, not `name ()` as the unrestricted claim would
require. -/
theorem formatGitAuthor_counterexample :
    formatGitAuthor "John Doe" "" = "John Doe" ∧
    formatGitAuthor "John Doe" "" ≠ "John Doe ()" ∧
    noReplyUser ("" : String).data = none ∧
    ("John Doe" : String).data.contains ' ' = true := by
  refine ⟨by decide, by decide, by decide, by decide⟩

/-- C9 (amended to nonempty name and email): noreply emails render as
`@username` (and the digits-plus-username noreply shape always matches),
space-free names render as `@name`, spaced names render as
`name (email)`. -/
theorem formatGitAuthor_claim (name email : String)
    (hn : name.data ≠ []) (he : email.data ≠ []) :
    (∀ u, noReplyUser email.data = some u →
      formatGitAuthor name email = "@" ++ (⟨u⟩ : String)) ∧
    (noReplyUser email.data = none → name.data.contains ' ' = false →
      formatGitAuthor name email = "@" ++ name) ∧
    (noReplyUser email.data = none → name.data.contains ' ' = true →
      formatGitAuthor name email = name ++ " (" ++ email ++ ")") ∧
    (∀ ds u : List Char, ds ≠ [] → (∀ c ∈ ds, isDigitCh c = true) →
      u ≠ [] → '@' ∉ u →
      noReplyUser (ds ++ '+' :: (u ++ "@users.noreply.github.com".data)) = some u) := by
  refine ⟨?_, ?_, ?_, ?_⟩
  · intro u hu
    rw [formatGitAuthor, if_neg hn, hu]
  · intro hu hsp
    rw [formatGitAuthor, if_neg hn, hu]
    simp only [hsp]
    rw [if_neg (by simp)]
  · intro hu hsp
    rw [formatGitAuthor, if_neg hn, hu]
    simp only [hsp]
    rw [if_pos (by simp), if_neg he]
  · intro ds u hds hdig hu hat
    have htake : (ds ++ '+' :: (u ++ "@users.noreply.github.com".data)).takeWhile isDigitCh =
        ds := takeWhile_middle _ ds '+' _ hdig (by decide)
    rw [noReplyUser, splitLeadingDigitsPlus]
    simp only [htake]
    rw [if_neg hds, List.drop_left]
    simp only []
    rw [tryNoReplyAt]
    have hu2 : ∀ c ∈ u, (fun ch : Char => decide (ch ≠ '@')) c = true := by
      intro c hc
      simp only [decide_eq_true_eq]
      exact fun heq => hat (heq ▸ hc)
    have htake2 : (u ++ "@users.noreply.github.com".data).takeWhile (fun c => c ≠ '@') =
        u := by
      have hdom : "@users.noreply.github.com".data =
          '@' :: "users.noreply.github.com".data := by decide
      rw [hdom]
      exact takeWhile_middle _ u '@' _ hu2 (by simp)
    simp only [htake2]
    rw [if_neg hu, List.drop_left]
    rw [show matchLitCI "@users.noreply.github.com".data "@users.noreply.github.com".data =
      some [] from by decide]

/-- C9 witness: the documented scenario, `ThomasRalee` with a digits-plus
noreply email, renders as `@ThomasRalee`. -/
theorem formatGitAuthor_claim_witness :
    formatGitAuthor "ThomasRalee" "12345+ThomasRalee@users.noreply.github.com" =
      "@ThomasRalee" := by
  have h := (formatGitAuthor_claim "ThomasRalee"
    "12345+ThomasRalee@users.noreply.github.com" (by decide) (by decide)).1
    ("ThomasRalee" : String).data (by decide)
  rw [h]
  decide

/-! ## TicketExtractor: the JIRA_PATTERN scanner -/

/-- Match `IL-\d{3,5}` (case-insensitive, greedy) at the start of the input,
returning the raw token (original case) and the remainder. -/
def jiraMatchAt (l : List Char) : Option (List Char × List Char) :=
  match l with
  | c1 :: c2 :: c3 :: rest =>
    if (c1 == 'I' || c1 == 'i') && (c2 == 'L' || c2 == 'l') && c3 == '-' then
      let ds := (rest.take 5).takeWhile isDigitCh
      if 3 ≤ ds.length then some (c1 :: c2 :: c3 :: ds, rest.drop ds.length) else none
    else none
  | _ => none

theorem jiraMatchAt_lt {l tok rest : List Char} (h : jiraMatchAt l = some (tok, rest)) :
    rest.length < l.length := by
  match l with
  | [] => cases h
  | [c1] => cases h
  | [c1, c2] => cases h
  | c1 :: c2 :: c3 :: r =>
    rw [jiraMatchAt] at h
    by_cases hb : ((c1 == 'I' || c1 == 'i') && (c2 == 'L' || c2 == 'l') && c3 == '-') = true
    swap
    · rw [if_neg hb] at h; cases h
    rw [if_pos hb] at h
    simp only [] at h
    by_cases hlen : 3 ≤ ((r.take 5).takeWhile isDigitCh).length
    swap
    · rw [if_neg hlen] at h; cases h
    rw [if_pos hlen] at h
    injection h with h
    injection h with h1 h2
    subst h2
    have : (r.drop ((r.take 5).takeWhile isDigitCh).length).length ≤ r.length := by
      simp
    simp only [List.length_cons]
    omega

/-- Fuel-driven global scanner for `IL-\d{3,5}` matches (the `g` flag). -/
def jiraScanGo : Nat → List Char → List (List Char)
  | 0, _ => []
  | _ + 1, [] => []
  | fuel + 1, c :: cs =>
    match jiraMatchAt (c :: cs) with
    | some (tok, rest) => tok :: jiraScanGo fuel rest
    | none => jiraScanGo fuel cs

/-- All `IL-\d{3,5}` matches of the input, left to right, non-overlapping. -/
def jiraScanL (l : List Char) : List (List Char) := jiraScanGo l.length l

theorem jiraScanGo_nil (f : Nat) : jiraScanGo f [] = [] := by
  cases f <;> rfl

theorem jiraScanGo_mono (f1 : Nat) : ∀ (f2 : Nat) (l : List Char),
    l.length ≤ f1 → l.length ≤ f2 → jiraScanGo f1 l = jiraScanGo f2 l := by
  induction f1 with
  | zero =>
    intro f2 l h1 h2
    have : l = [] := by
      cases l with
      | nil => rfl
      | cons c cs => simp at h1
    subst this
    rw [jiraScanGo_nil, jiraScanGo_nil]
  | succ k ih =>
    intro f2 l h1 h2
    cases l with
    | nil => rw [jiraScanGo_nil, jiraScanGo_nil]
    | cons c cs =>
      cases f2 with
      | zero => simp at h2
      | succ m =>
        rw [jiraScanGo, jiraScanGo]
        rcases hm : jiraMatchAt (c :: cs) with _ | ⟨tok, rest⟩
        · simp only []
          exact ih m cs (by simp at h1; omega) (by simp at h2; omega)
        · simp only []
          have hlt := jiraMatchAt_lt hm
          rw [ih m rest (by simp at h1 hlt ⊢; omega) (by simp at h2 hlt ⊢; omega)]

theorem jiraScanL_cons (c : Char) (cs : List Char) :
    jiraScanL (c :: cs) =
      match jiraMatchAt (c :: cs) with
      | some (tok, rest) => tok :: jiraScanL rest
      | none => jiraScanL cs := by
  rw [jiraScanL]
  simp only [List.length_cons]
  rw [jiraScanGo]
  rcases hm : jiraMatchAt (c :: cs) with _ | ⟨tok, rest⟩
  · rfl
  · simp only []
    have hlt := jiraMatchAt_lt hm
    rw [jiraScanGo_mono cs.length rest.length rest
      (by simp at hlt; omega) (le_refl _)]
    rfl

/-- ASCII upper-casing (JS `toUpperCase` restricted to the token
alphabet of the pattern). -/
def upperCh (c : Char) : Char :=
  if 97 ≤ c.toNat ∧ c.toNat ≤ 122 then Char.ofNat (c.toNat - 32) else c

/-- Upper-case a token. -/
def upperStr (l : List Char) : List Char := l.map upperCh

/-- Deduplication preserving first occurrence (`[...new Set(xs)]`). -/
def dedupFirstGo (seen : List (List Char)) : List (List Char) → List (List Char)
  | [] => []
  | x :: xs => if x ∈ seen then dedupFirstGo seen xs else x :: dedupFirstGo (x :: seen) xs

/-- Char-level embedding of `extractJiraFromText`: all pattern matches,
upper-cased, deduplicated preserving first-seen order. -/
def extractJiraL (l : List Char) : List (List Char) :=
  dedupFirstGo [] ((jiraScanL l).map upperStr)

/-- Embedding of `extractJiraFromText` from the staging-notification slack
module: `text.match(/IL-\d{3,5}/gi)` then upper-case and dedupe. -/
def extractJiraFromText (text : String) : List String :=
  (extractJiraL text.data).map (fun t => (⟨t⟩ : String))

/-- A canonical ticket id: `IL-` followed by three to five digits. -/
def isTicketIdL (l : List Char) : Bool :=
  match l with
  | c1 :: c2 :: c3 :: ds =>
    c1 == 'I' && c2 == 'L' && c3 == '-' && decide (3 ≤ ds.length) &&
      decide (ds.length ≤ 5) && ds.all isDigitCh
  | _ => false

theorem isTicketIdL_shape {t : List Char} :
    isTicketIdL t = true ↔
      ∃ ds, t = 'I' :: 'L' :: '-' :: ds ∧ 3 ≤ ds.length ∧ ds.length ≤ 5 ∧
        (∀ c ∈ ds, isDigitCh c = true) := by
  constructor
  · intro h
    match t with
    | [] => cases h
    | [c1] => cases h
    | [c1, c2] => cases h
    | c1 :: c2 :: c3 :: ds =>
      rw [isTicketIdL] at h
      simp only [Bool.and_eq_true, beq_iff_eq, decide_eq_true_eq, List.all_eq_true] at h
      obtain ⟨⟨⟨⟨⟨h1, h2⟩, h3⟩, h4⟩, h5⟩, h6⟩ := h
      exact ⟨ds, by rw [h1, h2, h3], h4, h5, h6⟩
  · rintro ⟨ds, rfl, h3, h5, hd⟩
    rw [isTicketIdL]
    simp only [Bool.and_eq_true, beq_iff_eq, decide_eq_true_eq, List.all_eq_true]
    exact ⟨⟨⟨⟨⟨trivial, trivial⟩, trivial⟩, h3⟩, h5⟩, hd⟩

theorem jiraMatchAt_some {l tok rest : List Char} (h : jiraMatchAt l = some (tok, rest)) :
    ∃ c1 c2 ds, tok = c1 :: c2 :: '-' :: ds ∧
      (c1 = 'I' ∨ c1 = 'i') ∧ (c2 = 'L' ∨ c2 = 'l') ∧
      3 ≤ ds.length ∧ ds.length ≤ 5 ∧ (∀ c ∈ ds, isDigitCh c = true) := by
  match l with
  | [] => cases h
  | [c1] => cases h
  | [c1, c2] => cases h
  | c1 :: c2 :: c3 :: r =>
    rw [jiraMatchAt] at h
    by_cases hb : ((c1 == 'I' || c1 == 'i') && (c2 == 'L' || c2 == 'l') && c3 == '-') = true
    swap
    · rw [if_neg hb] at h; cases h
    rw [if_pos hb] at h
    simp only [] at h
    by_cases hlen : 3 ≤ ((r.take 5).takeWhile isDigitCh).length
    swap
    · rw [if_neg hlen] at h; cases h
    rw [if_pos hlen] at h
    injection h with h
    injection h with h1 h2
    simp only [Bool.and_eq_true, Bool.or_eq_true, beq_iff_eq] at hb
    obtain ⟨⟨hb1, hb2⟩, hb3⟩ := hb
    refine ⟨c1, c2, (r.take 5).takeWhile isDigitCh, ?_, hb1, hb2, hlen, ?_, ?_⟩
    · rw [← h1, hb3]
    · calc ((r.take 5).takeWhile isDigitCh).length ≤ (r.take 5).length :=
          (List.takeWhile_sublist _).length_le
        _ ≤ 5 := by simp
    · intro c hc
      exact List.mem_takeWhile_imp hc

theorem upperCh_digit {c : Char} (h : isDigitCh c = true) : upperCh c = c := by
  have := toNat_of_isDigitCh h
  rw [upperCh, if_neg (by omega)]

theorem upperStr_token {c1 c2 : Char} {ds : List Char}
    (h1 : c1 = 'I' ∨ c1 = 'i') (h2 : c2 = 'L' ∨ c2 = 'l')
    (hds : ∀ c ∈ ds, isDigitCh c = true) :
    upperStr (c1 :: c2 :: '-' :: ds) = 'I' :: 'L' :: '-' :: ds := by
  have e1 : upperCh c1 = 'I' := by rcases h1 with rfl | rfl <;> decide
  have e2 : upperCh c2 = 'L' := by rcases h2 with rfl | rfl <;> decide
  have e4 : ds.map upperCh = ds := by
    rw [show ds.map upperCh = ds.map id from
      List.map_congr_left (fun c hc => upperCh_digit (hds c hc))]
    exact List.map_id ds
  rw [upperStr]
  simp only [List.map_cons, e1, e2, e4]
  rw [show upperCh '-' = '-' from by decide]

theorem jiraScanL_tokens_aux (n : Nat) : ∀ (l : List Char), l.length ≤ n →
    ∀ t ∈ jiraScanL l, isTicketIdL (upperStr t) = true := by
  induction n with
  | zero =>
    intro l h t ht
    have : l = [] := by
      cases l with
      | nil => rfl
      | cons c cs => simp at h
    subst this
    cases ht
  | succ k ih =>
    intro l hlen t ht
    cases l with
    | nil => cases ht
    | cons c cs =>
      rw [jiraScanL_cons] at ht
      rcases hm : jiraMatchAt (c :: cs) with _ | ⟨tok, rest⟩ <;> rw [hm] at ht <;>
        simp only [] at ht
      · exact ih cs (by simp at hlen; omega) t ht
      · rcases List.mem_cons.mp ht with rfl | ht2
        · obtain ⟨c1, c2, ds, rfl, hc1, hc2, h3, h5, hd⟩ := jiraMatchAt_some hm
          rw [upperStr_token hc1 hc2 hd]
          exact isTicketIdL_shape.mpr ⟨ds, rfl, h3, h5, hd⟩
        · have hlt := jiraMatchAt_lt hm
          exact ih rest (by simp at hlen hlt ⊢; omega) t ht2

theorem jiraScanL_tokens (l : List Char) :
    ∀ t ∈ jiraScanL l, isTicketIdL (upperStr t) = true :=
  jiraScanL_tokens_aux l.length l (le_refl _)

theorem dedupFirstGo_subset {x : List Char} :
    ∀ (seen l : List (List Char)), x ∈ dedupFirstGo seen l → x ∈ l := by
  intro seen l
  induction l generalizing seen with
  | nil => intro h; cases h
  | cons y ys ih =>
    intro h
    rw [dedupFirstGo] at h
    by_cases hy : y ∈ seen
    · rw [if_pos hy] at h
      exact List.mem_cons_of_mem y (ih seen h)
    · rw [if_neg hy] at h
      rcases List.mem_cons.mp h with rfl | h2
      · exact List.mem_cons_self x ys
      · exact List.mem_cons_of_mem y (ih (y :: seen) h2)

theorem dedupFirstGo_spec : ∀ (l seen : List (List Char)),
    (dedupFirstGo seen l).Nodup ∧ ∀ x ∈ dedupFirstGo seen l, x ∉ seen := by
  intro l
  induction l with
  | nil => intro seen; simp [dedupFirstGo]
  | cons y ys ih =>
    intro seen
    rw [dedupFirstGo]
    by_cases hy : y ∈ seen
    · rw [if_pos hy]
      exact ih seen
    · rw [if_neg hy]
      obtain ⟨ihn, ihs⟩ := ih (y :: seen)
      refine ⟨List.nodup_cons.mpr ⟨?_, ihn⟩, ?_⟩
      · intro hmem
        exact ihs y hmem (List.mem_cons_self y seen)
      · intro x hx
        rcases List.mem_cons.mp hx with rfl | h2
        · exact hy
        · exact fun hs => ihs x h2 (List.mem_cons_of_mem y hs)

theorem dedupFirstGo_of_nodup : ∀ (l seen : List (List Char)), l.Nodup →
    (∀ x ∈ l, x ∉ seen) → dedupFirstGo seen l = l := by
  intro l
  induction l with
  | nil => intro seen _ _; rfl
  | cons y ys ih =>
    intro seen hn hs
    rw [dedupFirstGo, if_neg (hs y (List.mem_cons_self y ys))]
    rw [ih (y :: seen) (List.nodup_cons.mp hn).2]
    intro x hx
    rw [List.mem_cons]
    rintro (rfl | h2)
    · exact (List.nodup_cons.mp hn).1 hx
    · exact hs x (List.mem_cons_of_mem y hx) h2

/-- JS `Array.prototype.join(sep)`. -/
def joinSep (sep : String) (l : List String) : String :=
  match l with
  | [] => ""
  | x :: xs => xs.foldl (fun a s => a ++ sep ++ s) x

/-- Char-level image of joining ticket tokens with `", "`. -/
def joinT : List (List Char) → List Char
  | [] => []
  | t :: rest => t ++ rest.flatMap (fun u => ',' :: ' ' :: u)

theorem joinSep_comma_data (xs : List String) :
    (joinSep ", " xs).data = joinT (xs.map String.data) := by
  cases xs with
  | nil => rfl
  | cons x rest =>
    suffices h : ∀ (rest : List String) (a : String),
        (rest.foldl (fun a s => a ++ ", " ++ s) a).data =
          a.data ++ rest.flatMap (fun s => ',' :: ' ' :: s.data) by
      rw [joinSep]
      simp only [h rest x, joinT, List.map_cons, List.flatMap_map]
    intro rest
    induction rest with
    | nil => intro a; simp
    | cons y ys ih =>
      intro a
      rw [List.foldl_cons, ih (a ++ ", " ++ y)]
      simp only [String.data_append, List.flatMap_cons]
      simp [String.data]

theorem jiraMatchAt_ticket (t rest : List Char) (ht : isTicketIdL t = true)
    (hrest : rest = [] ∨ ∃ r, rest = ',' :: r) :
    jiraMatchAt (t ++ rest) = some (t, rest) := by
  obtain ⟨ds, rfl, h3, h5, hd⟩ := isTicketIdL_shape.mp ht
  have e1 : (ds ++ rest).take 5 = ds ++ rest.take (5 - ds.length) := by
    rw [List.take_append_eq_append_take, List.take_of_length_le h5]
  have htw : ((ds ++ rest).take 5).takeWhile isDigitCh = ds := by
    rw [e1]
    rcases hrest with rfl | ⟨r, rfl⟩
    · rw [List.take_nil, List.append_nil]
      exact List.takeWhile_eq_self_iff.mpr hd
    · rcases hk : 5 - ds.length with _ | k
      · rw [List.take_zero, List.append_nil]
        exact List.takeWhile_eq_self_iff.mpr hd
      · rw [List.take_succ_cons]
        exact takeWhile_middle _ ds ',' _ hd (by decide)
  have hdrop : (ds ++ rest).drop ds.length = rest := List.drop_left ds rest
  rw [show ('I' :: 'L' :: '-' :: ds) ++ rest = 'I' :: 'L' :: '-' :: (ds ++ rest) from rfl]
  rw [jiraMatchAt]
  simp only [htw, hdrop]
  rw [if_pos h3]
  simp

theorem jiraScanL_skip (c : Char) (l : List Char) (hc1 : c ≠ 'I') (hc2 : c ≠ 'i') :
    jiraScanL (c :: l) = jiraScanL l := by
  rw [jiraScanL_cons]
  have h1 : jiraMatchAt (c :: l) = none := by
    match l with
    | [] => rfl
    | [c2] => rfl
    | c2 :: c3 :: r =>
      rw [jiraMatchAt]
      rw [if_neg (by simp [hc1, hc2])]
  rw [h1]

theorem jiraScanL_join (ts : List (List Char)) (h : ∀ t ∈ ts, isTicketIdL t = true) :
    jiraScanL (joinT ts) = ts := by
  induction ts with
  | nil => rfl
  | cons t rest ih =>
    have hti := h t (List.mem_cons_self t rest)
    obtain ⟨ds, hts, h3, h5, hd⟩ := isTicketIdL_shape.mp hti
    cases rest with
    | nil =>
      rw [joinT]
      simp only [List.flatMap_nil, List.append_nil]
      have hm : jiraMatchAt (t ++ []) = some (t, []) :=
        jiraMatchAt_ticket t [] hti (Or.inl rfl)
      rw [List.append_nil] at hm
      rw [hts] at hm ⊢
      rw [jiraScanL_cons, hm]
      simp only []
      rfl
    | cons t2 rest2 =>
      have hjoin : joinT (t :: t2 :: rest2) = t ++ (',' :: ' ' :: joinT (t2 :: rest2)) := by
        rw [joinT, joinT]
        simp
      rw [hjoin]
      have hm : jiraMatchAt (t ++ (',' :: ' ' :: joinT (t2 :: rest2))) =
          some (t, ',' :: ' ' :: joinT (t2 :: rest2)) :=
        jiraMatchAt_ticket t _ hti (Or.inr ⟨_, rfl⟩)
      rw [hts] at hm ⊢
      rw [List.cons_append] at hm ⊢
      rw [jiraScanL_cons, hm]
      simp only []
      rw [jiraScanL_skip ',' _ (by decide) (by decide),
        jiraScanL_skip ' ' _ (by decide) (by decide)]
      rw [← hts, ih (fun u hu => h u (List.mem_cons_of_mem t hu))]

theorem upperStr_canonical {t : List Char} (h : isTicketIdL t = true) : upperStr t = t := by
  obtain ⟨ds, rfl, h3, h5, hd⟩ := isTicketIdL_shape.mp h
  exact upperStr_token (Or.inl rfl) (Or.inl rfl) hd

theorem extractJiraL_canonical (l : List Char) :
    (∀ t ∈ extractJiraL l, isTicketIdL t = true) ∧ (extractJiraL l).Nodup := by
  constructor
  · intro t ht
    have hmem := dedupFirstGo_subset _ _ ht
    obtain ⟨tok, htok, rfl⟩ := List.mem_map.mp hmem
    exact jiraScanL_tokens l tok htok
  · exact (dedupFirstGo_spec _ []).1

theorem extractJiraL_idem (l : List Char) :
    extractJiraL (joinT (extractJiraL l)) = extractJiraL l := by
  obtain ⟨hcan, hnd⟩ := extractJiraL_canonical l
  rw [extractJiraL, jiraScanL_join _ hcan]
  rw [show (extractJiraL l).map upperStr = (extractJiraL l).map id from
    List.map_congr_left (fun t ht => upperStr_canonical (hcan t ht))]
  rw [List.map_id]
  exact dedupFirstGo_of_nodup _ [] hnd (by simp)

/-- C5: ticket extraction returns canonical upper-case `IL-` ids without
duplicates, is idempotent on its own `", "`-joined output, and collapses
case-insensitive duplicates to one canonical entry. -/
theorem extractJiraFromText_claim :
    (∀ s : String,
      (∀ t ∈ extractJiraFromText s, isTicketIdL t.data = true) ∧
      (extractJiraFromText s).Nodup ∧
      extractJiraFromText (joinSep ", " (extractJiraFromText s)) = extractJiraFromText s) ∧
    extractJiraFromText "Working on IL-1234 and IL-1234 again" = ["IL-1234"] ∧
    extractJiraFromText "il-1234 and IL-1234" = ["IL-1234"] := by
  refine ⟨?_, by decide, by decide⟩
  intro s
  obtain ⟨hcan, hnd⟩ := extractJiraL_canonical s.data
  refine ⟨?_, ?_, ?_⟩
  · intro t ht
    obtain ⟨u, hu, rfl⟩ := List.mem_map.mp ht
    exact hcan u hu
  · refine List.Nodup.map ?_ hnd
    intro a b hab
    exact congrArg String.data hab
  · rw [extractJiraFromText]
    have hdata : (joinSep ", " (extractJiraFromText s)).data =
        joinT (extractJiraL s.data) := by
      rw [joinSep_comma_data, extractJiraFromText]
      rw [List.map_map]
      rw [show (String.data ∘ fun t : List Char => (⟨t⟩ : String)) = id from
        funext (fun t => rfl)]
      rw [List.map_id]
    rw [hdata, extractJiraL_idem]
    rfl

/-- C5 witness: extraction at a concrete mixed-case input, and idempotence on
its joined output. -/
theorem extractJiraFromText_claim_witness :
    extractJiraFromText "see il-123 and IL-124" = ["IL-123", "IL-124"] ∧
    extractJiraFromText (joinSep ", " (extractJiraFromText "see il-123 and IL-124")) =
      extractJiraFromText "see il-123 and IL-124" :=
  ⟨by decide, (extractJiraFromText_claim.1 "see il-123 and IL-124").2.2⟩

/-! ## NotifierClient: slackRequest retry loop -/

/-- Outcome of one `makeRequest` call: either a resolved JSON response with
its `ok` flag and `error` field (payload abstracted to a number), or a
rejected promise carrying an exception message. -/
inductive ReqResult where
  | resp (ok : Bool) (error : String) (payload : Nat)
  | exn (msg : String)
deriving DecidableEq, Repr

/-- The retryable error classes of the source. -/
def retryableErrors : List String :=
  ["rate_limited", "service_unavailable", "internal_error", "request_timeout"]

/-- Embedding of `isRetryableError`: exact membership in the retryable
class. -/
def isRetryableError (error : String) : Bool := retryableErrors.contains error

/-- Substring search on char lists (JS `String.prototype.includes`). -/
def containsSub (p : List Char) : List Char → Bool
  | [] => decide (p = [])
  | c :: cs => p.isPrefixOf (c :: cs) || containsSub p cs

/-- JS `s.includes(sub)`. -/
def strIncludes (s sub : String) : Bool := containsSub sub.data s.data

/-- The catch-block test deciding an immediate rethrow: the message is a
Slack API error and mentions none of the retryable tokens. -/
def isNonRetryableMessage (msg : String) : Bool :=
  strIncludes msg "Slack API error:" && !(strIncludes msg "rate_limited") &&
    !(strIncludes msg "service_unavailable") && !(strIncludes msg "internal_error") &&
    !(strIncludes msg "request_timeout")

/-- Embedding of the `slackRequest` retry loop. `rem + 1` is the number of
loop iterations still available, so `rem = 0` is the `attempt === MAX_RETRIES`
test; the result carries the outcome, the number of the deciding attempt and
the number of executed `sleep(RETRY_DELAY_MS)` calls. -/
def slackLoop (f : Nat → ReqResult) : Nat → Nat → Option String → Nat →
    Except String Nat × Nat × Nat
  | 0, attempt, lastError, sleeps =>
    ((match lastError with
      | some m => Except.error m
      | none => Except.error "undefined"), attempt - 1, sleeps)
  | rem + 1, attempt, _, sleeps =>
    match f attempt with
    | .resp true _ payload => (Except.ok payload, attempt, sleeps)
    | .resp false e _ =>
      if isRetryableError e then
        slackLoop f rem (attempt + 1) (some ("Slack API error: " ++ e)) (sleeps + 1)
      else
        if isNonRetryableMessage ("Slack API error: " ++ e) then
          (Except.error ("Slack API error: " ++ e), attempt, sleeps)
        else if rem = 0 then (Except.error ("Slack API error: " ++ e), attempt, sleeps)
        else slackLoop f rem (attempt + 1) (some ("Slack API error: " ++ e)) (sleeps + 1)
    | .exn m =>
      if isNonRetryableMessage m then (Except.error m, attempt, sleeps)
      else if rem = 0 then (Except.error m, attempt, sleeps)
      else slackLoop f rem (attempt + 1) (some m) (sleeps + 1)

/-- One full `slackRequest` invocation: three attempts starting at 1. -/
def slackRequestRun (f : Nat → ReqResult) : Except String Nat × Nat × Nat :=
  slackLoop f 3 1 none 0

/-- C4 counterexample: the error string `fatal_internal_error` is outside
the retryable class, yet the code retries it through all three attempts
(because the catch block re-derives retryability by substring search on the
message), instead of failing immediately on attempt 1. -/
theorem slackRequest_counterexample :
    isRetryableError "fatal_internal_error" = false ∧
    slackRequestRun (fun _ => .resp false "fatal_internal_error" 0) =
      (Except.error "Slack API error: fatal_internal_error", 3, 2) ∧
    (slackRequestRun (fun _ => .resp false "fatal_internal_error" 0)).2.1 ≠ 1 := by
  refine ⟨by decide, by decide, by decide⟩

theorem slackLoop_attempt_le (f : Nat → ReqResult) :
    ∀ (rem attempt : Nat) (le : Option String) (sl : Nat),
      (slackLoop f rem attempt le sl).2.1 ≤ attempt + rem - 1 := by
  intro rem
  induction rem with
  | zero =>
    intro attempt le sl
    simp [slackLoop]
  | succ k ih =>
    intro attempt le sl
    rw [slackLoop]
    rcases hf : f attempt with ⟨ok, e, payload⟩ | m
    · cases ok with
      | true => simp
      | false =>
        simp only []
        by_cases hret : isRetryableError e = true
        · rw [if_pos hret]
          have := ih (attempt + 1) (some ("Slack API error: " ++ e)) (sl + 1)
          omega
        · rw [if_neg hret]
          by_cases hnr : isNonRetryableMessage ("Slack API error: " ++ e) = true
          · rw [if_pos hnr]
            simp only []
            omega
          · rw [if_neg hnr]
            by_cases hk : k = 0
            · rw [if_pos hk]
              simp only []
              omega
            · rw [if_neg hk]
              have := ih (attempt + 1) (some ("Slack API error: " ++ e)) (sl + 1)
              omega
    · simp only []
      by_cases hnr : isNonRetryableMessage m = true
      · rw [if_pos hnr]
        simp only []
        omega
      · rw [if_neg hnr]
        by_cases hk : k = 0
        · rw [if_pos hk]
          simp only []
          omega
        · rw [if_neg hk]
          have := ih (attempt + 1) (some m) (sl + 1)
          omega

/-- C4 (amended): at most three attempts are made; a success returns at
once; a non-retryable response whose message contains no retryable token
fails on the first attempt with no delay; three retryable-class failures
consume all three attempts, sleeping the fixed delay between attempts, and
surface the last error. -/
theorem slackRequest_claim (f : Nat → ReqResult) :
    (slackRequestRun f).2.1 ≤ 3 ∧
    (∀ e p, f 1 = .resp true e p → slackRequestRun f = (.ok p, 1, 0)) ∧
    (∀ e p, f 1 = .resp false e p → isRetryableError e = false →
      isNonRetryableMessage ("Slack API error: " ++ e) = true →
      slackRequestRun f = (.error ("Slack API error: " ++ e), 1, 0)) ∧
    (∀ e1 e2 e3 p1 p2 p3,
      f 1 = .resp false e1 p1 → f 2 = .resp false e2 p2 → f 3 = .resp false e3 p3 →
      isRetryableError e1 = true → isRetryableError e2 = true → isRetryableError e3 = true →
      slackRequestRun f = (.error ("Slack API error: " ++ e3), 3, 3)) := by
  refine ⟨slackLoop_attempt_le f 3 1 none 0, ?_, ?_, ?_⟩
  · intro e p h1
    rw [slackRequestRun]
    rw [show (3 : Nat) = 2 + 1 from rfl, slackLoop, h1]
  · intro e p h1 hret hnr
    rw [slackRequestRun]
    rw [show (3 : Nat) = 2 + 1 from rfl, slackLoop, h1]
    simp only []
    rw [if_neg (by rw [hret]; simp), if_pos hnr]
  · intro e1 e2 e3 p1 p2 p3 h1 h2 h3 r1 r2 r3
    rw [slackRequestRun]
    rw [show (3 : Nat) = 2 + 1 from rfl, slackLoop, h1]
    simp only []
    rw [if_pos r1]
    rw [show (2 : Nat) = 1 + 1 from rfl, slackLoop, h2]
    simp only []
    rw [if_pos r2]
    rw [show (1 : Nat) = 0 + 1 from rfl, slackLoop, h3]
    simp only []
    rw [if_pos r3]
    rw [slackLoop]

/-- C4 witness: three straight `rate_limited` responses exhaust the three
attempts and surface the last error. -/
theorem slackRequest_claim_witness :
    slackRequestRun (fun _ => .resp false "rate_limited" 0) =
      (.error "Slack API error: rate_limited", 3, 3) :=
  (slackRequest_claim (fun _ => .resp false "rate_limited" 0)).2.2.2
    "rate_limited" "rate_limited" "rate_limited" 0 0 0 rfl rfl rfl
    (by decide) (by decide) (by decide)

/-! ## GitRangeReader: getCommitsBetweenWithMerges -/

/-- JS `s.startsWith(pre)`. -/
def strStartsWith (s pre : String) : Bool := pre.data.isPrefixOf s.data

/-- Oracle view of the git queries issued by `getCommitsBetweenWithMerges`:
the `fromRef` commit date (`none` models the `getCommitDate` throw), the
first-parent commit list between the refs, and for each merge hash the
parsed records of the `hash^1..hash^2` raw log (`none` models the per-merge
error that the source catches and ignores). The pipe-separated raw output is
modeled as structured records; the `hash &&` truthiness check of the source
is kept as a nonempty-hash guard. -/
structure GitOracle where
  fromRefTimestamp : Option Nat
  mergeCommits : List Commit
  expand : String → Option (List Commit)

/-- Inner loop over one merge expansion: push each record whose hash is
nonempty and unseen and whose timestamp is after the tag; the string list is
the `seenHashes` set. -/
def addLines (fromTs : Nat) : List Commit → List String → List Commit × List String
  | [], seen => ([], seen)
  | m :: ms, seen =>
    if m.hash ≠ "" ∧ m.hash ∉ seen ∧ fromTs < m.timestamp then
      ((m :: (addLines fromTs ms (m.hash :: seen)).1),
        (addLines fromTs ms (m.hash :: seen)).2)
    else addLines fromTs ms seen

/-- The merge-expansion part of one loop iteration: only subjects starting
with `Merge pull request` are expanded, a failing expansion contributes
nothing. -/
def expandStep (g : GitOracle) (fromTs : Nat) (c : Commit) (seen : List String) :
    List Commit × List String :=
  if strStartsWith c.message "Merge pull request" then
    match g.expand c.hash with
    | some lines => addLines fromTs lines seen
    | none => ([], seen)
  else ([], seen)

/-- Main loop of `getCommitsBetweenWithMerges`: push the merge commit itself
when unseen and after the tag, then its expansion, then continue. -/
def gcbwmGo (g : GitOracle) (fromTs : Nat) : List Commit → List String → List Commit
  | [], _ => []
  | c :: cs, seen =>
    if c.hash ∉ seen ∧ fromTs < c.timestamp then
      c :: ((expandStep g fromTs c (c.hash :: seen)).1 ++
        gcbwmGo g fromTs cs (expandStep g fromTs c (c.hash :: seen)).2)
    else
      (expandStep g fromTs c seen).1 ++ gcbwmGo g fromTs cs (expandStep g fromTs c seen).2

/-- Embedding of `getCommitsBetweenWithMerges`: a failing `getCommitDate`
and an empty first-parent list both yield the empty list. -/
def getCommitsBetweenWithMerges (g : GitOracle) : List Commit :=
  match g.fromRefTimestamp with
  | none => []
  | some fromTs =>
    if g.mergeCommits = [] then []
    else gcbwmGo g fromTs g.mergeCommits []

/-- Expansion commits the claim attributes to one merge commit: the records
reachable from the second parent but not the first, kept only for PR merges,
with empty hashes discarded. -/
def expandPart (g : GitOracle) (c : Commit) : List Commit :=
  if strStartsWith c.message "Merge pull request" then
    match g.expand c.hash with
    | some lines => lines.filter (fun m => m.hash ≠ "")
    | none => []
  else []

/-- Spec-side candidate list of the claim: every first-parent merge commit
followed by its expansion commits, in order. -/
def candOf (g : GitOracle) (l : List Commit) : List Commit :=
  l.flatMap (fun c => c :: expandPart g c)

/-- Spec-side candidate list over the oracle's first-parent commits. -/
def candidateCommits (g : GitOracle) : List Commit := candOf g g.mergeCommits

/-- First-occurrence deduplication by hash, threading the seen set. -/
def dedupPairGo (seen : List String) : List Commit → List Commit × List String
  | [] => ([], seen)
  | c :: cs =>
    if c.hash ∈ seen then dedupPairGo seen cs
    else ((c :: (dedupPairGo (c.hash :: seen) cs).1), (dedupPairGo (c.hash :: seen) cs).2)

/-- Spec-side deduplication by hash keeping first occurrences. -/
def dedupByHash (l : List Commit) : List Commit := (dedupPairGo [] l).1

theorem dedupPairGo_append (seen : List String) (a b : List Commit) :
    dedupPairGo seen (a ++ b) =
      ((dedupPairGo seen a).1 ++ (dedupPairGo (dedupPairGo seen a).2 b).1,
        (dedupPairGo (dedupPairGo seen a).2 b).2) := by
  induction a generalizing seen with
  | nil => simp [dedupPairGo]
  | cons c cs ih =>
    rw [List.cons_append, dedupPairGo, dedupPairGo]
    by_cases hc : c.hash ∈ seen
    · rw [if_pos hc, if_pos hc, ih]
    · rw [if_neg hc, if_neg hc]
      simp only []
      rw [ih]
      rfl

theorem addLines_eq_dedup (fromTs : Nat) (ms : List Commit) :
    ∀ seen, addLines fromTs ms seen =
      dedupPairGo seen
        ((ms.filter (fun m => m.hash ≠ "")).filter (fun m => fromTs < m.timestamp)) := by
  induction ms with
  | nil => intro seen; rfl
  | cons m ms ih =>
    intro seen
    rw [addLines]
    by_cases hcond : m.hash ≠ "" ∧ m.hash ∉ seen ∧ fromTs < m.timestamp
    · obtain ⟨hh, hseen, hts⟩ := hcond
      rw [if_pos ⟨hh, hseen, hts⟩, List.filter_cons,
        if_pos (show decide (m.hash ≠ "") = true by simp [hh]), List.filter_cons,
        if_pos (show decide (fromTs < m.timestamp) = true by simp [hts]),
        dedupPairGo, if_neg hseen]
      rw [ih (m.hash :: seen)]
    · rw [if_neg hcond]
      by_cases hh : m.hash = ""
      · rw [List.filter_cons, if_neg (show ¬decide (m.hash ≠ "") = true by simp [hh])]
        exact ih seen
      · rw [List.filter_cons, if_pos (show decide (m.hash ≠ "") = true by simp [hh])]
        by_cases hts : fromTs < m.timestamp
        · have hseen : m.hash ∈ seen := by
            by_contra hc
            exact hcond ⟨hh, hc, hts⟩
          rw [List.filter_cons,
            if_pos (show decide (fromTs < m.timestamp) = true by simp [hts]),
            dedupPairGo, if_pos hseen]
          exact ih seen
        · rw [List.filter_cons,
            if_neg (show ¬decide (fromTs < m.timestamp) = true by simp [hts])]
          exact ih seen

theorem expandStep_eq_dedup (g : GitOracle) (fromTs : Nat) (c : Commit) (seen : List String) :
    expandStep g fromTs c seen =
      dedupPairGo seen ((expandPart g c).filter (fun m => fromTs < m.timestamp)) := by
  rw [expandStep, expandPart]
  by_cases hpr : strStartsWith c.message "Merge pull request" = true
  · rw [if_pos hpr, if_pos hpr]
    rcases hx : g.expand c.hash with _ | lines
    · rfl
    · exact addLines_eq_dedup fromTs lines seen
  · rw [if_neg hpr, if_neg hpr]
    rfl

theorem gcbwmGo_eq_dedup (g : GitOracle) (fromTs : Nat) (l : List Commit) :
    ∀ seen, gcbwmGo g fromTs l seen =
      (dedupPairGo seen ((candOf g l).filter (fun c => fromTs < c.timestamp))).1 := by
  induction l with
  | nil => intro seen; rfl
  | cons c cs ih =>
    intro seen
    have hcand : candOf g (c :: cs) = (c :: expandPart g c) ++ candOf g cs := by
      rw [candOf, List.flatMap_cons]
      rfl
    rw [gcbwmGo, hcand, List.filter_append]
    by_cases hcond : c.hash ∉ seen ∧ fromTs < c.timestamp
    · obtain ⟨hseen, hts⟩ := hcond
      rw [if_pos ⟨hseen, hts⟩, List.filter_cons,
        if_pos (show decide (fromTs < c.timestamp) = true by simp [hts]),
        List.cons_append, dedupPairGo, if_neg hseen]
      simp only []
      rw [dedupPairGo_append, expandStep_eq_dedup, ih]
    · rw [if_neg hcond]
      by_cases hts : fromTs < c.timestamp
      · have hseen : c.hash ∈ seen := by
          by_contra hc
          exact hcond ⟨hc, hts⟩
        rw [List.filter_cons,
          if_pos (show decide (fromTs < c.timestamp) = true by simp [hts]),
          List.cons_append, dedupPairGo, if_pos hseen, dedupPairGo_append,
          expandStep_eq_dedup, ih]
      · rw [List.filter_cons,
          if_neg (show ¬decide (fromTs < c.timestamp) = true by simp [hts]),
          dedupPairGo_append, expandStep_eq_dedup, ih]

/-- C1: with the tag commit date available, `getCommitsBetweenWithMerges`
returns exactly the candidate commits (each first-parent merge commit
followed by the commits reachable from its second parent but not its first)
whose timestamp is strictly greater than the tag timestamp, deduplicated by
hash keeping first occurrences, in order. -/
theorem getCommitsBetweenWithMerges_claim (g : GitOracle) (fromTs : Nat)
    (h : g.fromRefTimestamp = some fromTs) :
    getCommitsBetweenWithMerges g =
      dedupByHash ((candidateCommits g).filter (fun c => fromTs < c.timestamp)) := by
  rw [getCommitsBetweenWithMerges, h]
  simp only []
  by_cases hm : g.mergeCommits = []
  · rw [if_pos hm, dedupByHash, candidateCommits, candOf, hm]
    rfl
  · rw [if_neg hm, gcbwmGo_eq_dedup]
    rfl

/-- Sample merge commit for the C1 witness. -/
def c1Merge : Commit := ⟨"m1", 1005, "Merge pull request #5 from org/feat/x", "a", "a@x"⟩

/-- Second-parent commit strictly before the tag timestamp. -/
def c1Old : Commit := ⟨"c999", 999, "old commit", "b", "b@x"⟩

/-- Second-parent commit exactly at the tag timestamp. -/
def c1Eq : Commit := ⟨"c1000", 1000, "tag-time commit", "b", "b@x"⟩

/-- Second-parent commit strictly after the tag timestamp. -/
def c1New : Commit := ⟨"c1001", 1001, "fix: new", "b", "b@x"⟩

/-- C1 witness oracle: tag at 1000, one PR merge at 1005 whose expansion
holds commits at 999, 1000 and 1001. -/
def gDemo : GitOracle :=
  ⟨some 1000, [c1Merge], fun h => if h = "m1" then some [c1Old, c1Eq, c1New] else none⟩

/-- C1 witness: only the merge commit itself and the strictly-later commit
survive; the commits at and before the tag timestamp are dropped. -/
theorem getCommitsBetweenWithMerges_claim_witness :
    getCommitsBetweenWithMerges gDemo = [c1Merge, c1New] := by
  have h := getCommitsBetweenWithMerges_claim gDemo 1000 rfl
  rw [h]
  decide

/-! ## ThreadReconciler: the updateMessage text transformation

The pure text transformation of `updateMessage` (staging-notification slack
module): strip every `\*Staging URLs?:\*[^\n]*(\n- [^\n]+)*` match, trim,
append the current staging line, then append the new ticket links either
into the first `\*Jira tickets:\* [^\n]*` field or as a new field. The JS
replacement string `$1, <links>` is modeled as the matched text followed by
`, ` and the links; ticket ids contain no `$`, so no replacement-pattern
escape arises. -/

/-- Case-sensitive literal matcher returning the remainder. -/
def matchLit : List Char → List Char → Option (List Char)
  | [], l => some l
  | _ :: _, [] => none
  | p :: ps, c :: cs => if c = p then matchLit ps cs else none

theorem matchLit_some {p l r : List Char} : matchLit p l = some r ↔ l = p ++ r := by
  induction p generalizing l with
  | nil =>
    simp only [matchLit, List.nil_append]
    exact ⟨fun h => by injection h, fun h => by rw [h]⟩
  | cons x ps ih =>
    cases l with
    | nil =>
      simp only [matchLit]
      constructor
      · intro h; cases h
      · intro h; cases h
    | cons c cs =>
      simp only [matchLit, List.cons_append]
      by_cases hc : c = x
      · subst hc
        rw [if_pos rfl, ih]
        simp
      · rw [if_neg hc]
        constructor
        · intro h; cases h
        · intro h
          injection h with h1 _
          exact absurd h1 hc

theorem matchLit_length {p l r : List Char} (h : matchLit p l = some r) :
    r.length + p.length = l.length := by
  rw [matchLit_some] at h
  rw [h]
  simp only [List.length_append]
  omega

/-- The `s?:\*` tail of the staging-field opener: prefer consuming `s:*`,
fall back to `:*`. -/
def matchSColonStar (l : List Char) : Option (List Char) :=
  match matchLit "s:*".data l with
  | some r => some r
  | none => matchLit ":*".data l

theorem matchSColonStar_length {l r : List Char} (h : matchSColonStar l = some r) :
    r.length + 2 ≤ l.length := by
  rw [matchSColonStar] at h
  rcases h1 : matchLit "s:*".data l with _ | r1
  · rw [h1] at h
    simp only [] at h
    have h2 := matchLit_length h
    simp at h2
    omega
  · rw [h1] at h
    simp only [] at h
    injection h with h
    subst h
    have h2 := matchLit_length h1
    simp at h2
    omega

/-- One `\n- [^\n]+` bullet-continuation step of the staging regex. -/
def bulletStep (l : List Char) : Option (List Char) :=
  (expectCh '\n' l).bind (fun r1 =>
  (expectCh '-' r1).bind (fun r2 =>
  (expectCh ' ' r2).bind (fun r3 =>
  (takeNonEmpty (fun ch => ch ≠ '\n') r3).map (fun x => x.2))))

theorem bulletStep_lt {l r : List Char} (h : bulletStep l = some r) : r.length < l.length := by
  rw [bulletStep] at h
  simp only [Option.bind_eq_some, Option.map_eq_some'] at h
  obtain ⟨r1, h1, r2, h2, r3, h3, x, hx, hr⟩ := h
  rw [expectCh_some] at h1 h2 h3
  obtain ⟨ht, hs, hne⟩ := takeNonEmpty_some hx
  subst hr
  have e1 : r1.length < l.length := by rw [h1]; simp
  have e2 : r2.length < r1.length := by rw [h2]; simp
  have e3 : r3.length < r2.length := by rw [h3]; simp
  have e4 : x.2.length ≤ r3.length := by rw [hs]; simp
  omega

/-- Fuel-driven greedy loop over bullet-continuation lines. -/
def bulletsLoopF : Nat → List Char → List Char
  | 0, l => l
  | fuel + 1, l =>
    match bulletStep l with
    | some r => bulletsLoopF fuel r
    | none => l

/-- Greedy `(\n- [^\n]+)*` consumption, returning the remainder. -/
def bulletsLoop (l : List Char) : List Char := bulletsLoopF l.length l

theorem bulletsLoopF_mono (f1 : Nat) : ∀ (f2 : Nat) (l : List Char),
    l.length ≤ f1 → l.length ≤ f2 → bulletsLoopF f1 l = bulletsLoopF f2 l := by
  induction f1 with
  | zero =>
    intro f2 l h1 _
    have hl : l = [] := by
      cases l with
      | nil => rfl
      | cons c cs => simp at h1
    subst hl
    cases f2 with
    | zero => rfl
    | succ m =>
      rw [bulletsLoopF]
      rcases hs : bulletStep [] with _ | r
      · rfl
      · have := bulletStep_lt hs
        simp at this
  | succ k ih =>
    intro f2 l h1 h2
    cases f2 with
    | zero =>
      have hl : l = [] := by
        cases l with
        | nil => rfl
        | cons c cs => simp at h2
      subst hl
      rw [bulletsLoopF]
      rcases hs : bulletStep [] with _ | r
      · rfl
      · have := bulletStep_lt hs
        simp at this
    | succ m =>
      rw [bulletsLoopF, bulletsLoopF]
      rcases hs : bulletStep l with _ | r
      · rfl
      · have hlt := bulletStep_lt hs
        exact ih m r (by omega) (by omega)

theorem bulletsLoop_unfold (l : List Char) :
    bulletsLoop l = match bulletStep l with
      | some r => bulletsLoop r
      | none => l := by
  rcases hs : bulletStep l with _ | r
  · rw [bulletsLoop]
    cases hl : l.length with
    | zero => rfl
    | succ k =>
      rw [bulletsLoopF, hs]
  · have hlt := bulletStep_lt hs
    simp only []
    rw [bulletsLoop, bulletsLoop]
    cases hl : l.length with
    | zero => omega
    | succ k =>
      rw [bulletsLoopF, hs]
      exact bulletsLoopF_mono k r.length r (by omega) (le_refl _)

theorem bulletsLoop_le (l : List Char) : (bulletsLoop l).length ≤ l.length := by
  suffices h : ∀ (n : Nat) (l : List Char), l.length ≤ n →
      (bulletsLoop l).length ≤ l.length by
    exact h l.length l (le_refl _)
  intro n
  induction n with
  | zero =>
    intro l hl
    have he : l = [] := by
      cases l with
      | nil => rfl
      | cons c cs => simp at hl
    subst he
    exact le_refl _
  | succ k ih =>
    intro l hl
    rw [bulletsLoop_unfold]
    rcases hs : bulletStep l with _ | r
    · exact le_refl _
    · simp only []
      have hlt := bulletStep_lt hs
      have := ih r (by omega)
      omega

/-- Match the staging-field regex `\*Staging URLs?:\*[^\n]*(\n- [^\n]+)*` at
the start of the input, returning the remainder after the match. -/
def matchStaging (l : List Char) : Option (List Char) :=
  (matchLit "*Staging URL".data l).bind (fun r1 =>
  (matchSColonStar r1).map (fun r2 =>
    bulletsLoop (r2.dropWhile (fun ch => ch ≠ '\n'))))

theorem matchStaging_lt {l r : List Char} (h : matchStaging l = some r) :
    r.length < l.length := by
  rw [matchStaging] at h
  simp only [Option.bind_eq_some, Option.map_eq_some'] at h
  obtain ⟨r1, h1, r2, h2, hr⟩ := h
  have e1 := matchLit_length h1
  have e2 := matchSColonStar_length h2
  have e3 : (r2.dropWhile (fun ch => ch ≠ '\n')).length ≤ r2.length :=
    (List.dropWhile_suffix _).length_le
  have e4 := bulletsLoop_le (r2.dropWhile (fun ch => ch ≠ '\n'))
  subst hr
  simp at e1
  omega

/-- Fuel-driven global replace of the staging-field regex by the empty
string (JS `replace(..., '')` with the `g` flag). -/
def stripStagingF : Nat → List Char → List Char
  | 0, _ => []
  | _ + 1, [] => []
  | fuel + 1, c :: cs =>
    match matchStaging (c :: cs) with
    | some rest => stripStagingF fuel rest
    | none => c :: stripStagingF fuel cs

/-- Remove every staging-field match from the input. -/
def stripStagingL (l : List Char) : List Char := stripStagingF l.length l

theorem stripStagingF_mono (f1 : Nat) : ∀ (f2 : Nat) (l : List Char),
    l.length ≤ f1 → l.length ≤ f2 → stripStagingF f1 l = stripStagingF f2 l := by
  induction f1 with
  | zero =>
    intro f2 l h1 _
    have hl : l = [] := by
      cases l with
      | nil => rfl
      | cons c cs => simp at h1
    subst hl
    cases f2 with
    | zero => rfl
    | succ m => rfl
  | succ k ih =>
    intro f2 l h1 h2
    cases l with
    | nil =>
      cases f2 with
      | zero => rfl
      | succ m => rfl
    | cons c cs =>
      cases f2 with
      | zero => simp at h2
      | succ m =>
        rw [stripStagingF, stripStagingF]
        rcases hs : matchStaging (c :: cs) with _ | r
        · simp only []
          rw [ih m cs (by simp at h1; omega) (by simp at h2; omega)]
        · have hlt := matchStaging_lt hs
          simp only []
          exact ih m r (by simp at h1 hlt ⊢; omega) (by simp at h2 hlt ⊢; omega)

theorem stripStagingL_nil : stripStagingL [] = [] := rfl

theorem stripStagingL_cons (c : Char) (cs : List Char) :
    stripStagingL (c :: cs) = match matchStaging (c :: cs) with
      | some rest => stripStagingL rest
      | none => c :: stripStagingL cs := by
  rw [stripStagingL]
  simp only [List.length_cons]
  rw [stripStagingF]
  rcases hs : matchStaging (c :: cs) with _ | r
  · simp only []
    rfl
  · have hlt := matchStaging_lt hs
    simp only []
    rw [stripStagingF_mono cs.length r.length r (by simp at hlt; omega) (le_refl _)]
    rfl

/-- JS `String.prototype.trim`: drop whitespace from both ends. -/
def jsTrim (l : List Char) : List Char :=
  ((l.dropWhile jsWhitespace).reverse.dropWhile jsWhitespace).reverse

/-- The staging line appended on update. -/
def stagingLine (url : String) : String :=
  "*Staging URL:* <" ++ url ++ "|" ++ url ++ ">"

/-- First half of `updateMessage`: when a staging URL is given, strip every
staging field, trim, and append the current staging line. -/
def stagingPhase (currentText stagingUrl : String) : String :=
  if stagingUrl.data = [] then currentText
  else (⟨jsTrim (stripStagingL currentText.data)⟩ : String) ++ "\n" ++ stagingLine stagingUrl

/-- Atlassian browse link for one ticket. -/
def jiraLink (t : String) : String :=
  "<https://injective-labs.atlassian.net/browse/" ++ t ++ "|" ++ t ++ ">"

/-- The `newLinks` join of the source. -/
def newLinksStr (ts : List String) : String := joinSep ", " (ts.map jiraLink)

/-- The `ticketsToAdd` filter of the source: new tickets not already in the
accumulated set. -/
def ticketsToAdd (newT existT : List String) : List String :=
  newT.filter (fun t => !(existT.contains t))

/-- First-occurrence replace of `(\*Jira tickets:\* [^\n]*)` by the matched
text followed by `, ` and the links; no match leaves the text unchanged. -/
def replaceJiraField (links : List Char) : List Char → List Char
  | [] => []
  | c :: cs =>
    match matchLit "*Jira tickets:* ".data (c :: cs) with
    | some r1 =>
      "*Jira tickets:* ".data ++ (r1.takeWhile (fun ch => ch ≠ '\n')) ++
        (',' :: ' ' :: links) ++ (r1.drop (r1.takeWhile (fun ch => ch ≠ '\n')).length)
    | none => c :: replaceJiraField links cs

/-- The pure text transformation of `updateMessage`. -/
def updateMessageText (currentText stagingUrl : String) (newT existT : List String) :
    String :=
  let t1 := stagingPhase currentText stagingUrl
  let toAdd := ticketsToAdd newT existT
  if toAdd = [] then t1
  else if strIncludes t1 "Jira tickets:" then
    (⟨replaceJiraField (newLinksStr toAdd).data t1.data⟩ : String)
  else t1 ++ "\n*Jira tickets:* " ++ newLinksStr toAdd

/-- Number of positions at which `p` occurs in the input (occurrences may
overlap; used with nonempty patterns). -/
def countSub (p : List Char) : List Char → Nat
  | [] => 0
  | c :: cs => (if p.isPrefixOf (c :: cs) then 1 else 0) + countSub p cs

theorem countSub_eq_zero_iff {p : List Char} (hp : p ≠ []) (x : List Char) :
    countSub p x = 0 ↔ ¬ p <:+: x := by
  induction x with
  | nil =>
    simp only [countSub, List.infix_nil]
    exact ⟨fun _ => hp, fun _ => trivial⟩
  | cons c cs ih =>
    rw [countSub, List.infix_cons_iff]
    by_cases hpre : p.isPrefixOf (c :: cs) = true
    · rw [if_pos hpre]
      have := List.isPrefixOf_iff_prefix.mp hpre
      constructor
      · intro h; omega
      · intro h
        exact absurd (Or.inl this) h
    · rw [if_neg hpre]
      have hnp : ¬ p <+: c :: cs := fun h => hpre (List.isPrefixOf_iff_prefix.mpr h)
      simp only [Nat.zero_add, ih]
      constructor
      · intro h
        rintro (h2 | h2)
        · exact hnp h2
        · exact h h2
      · intro h h2
        exact h (Or.inr h2)

theorem countSub_pos_iff {p : List Char} (hp : p ≠ []) (x : List Char) :
    1 ≤ countSub p x ↔ p <:+: x := by
  have h := countSub_eq_zero_iff hp x
  constructor
  · intro h1
    by_contra h2
    rw [← h] at h2
    omega
  · intro h1
    by_contra h2
    have : countSub p x = 0 := by omega
    exact (h.mp this) h1

theorem containsSub_iff_occurs {p : List Char} (hp : p ≠ []) (x : List Char) :
    containsSub p x = true ↔ p <:+: x := by
  induction x with
  | nil =>
    rw [containsSub]
    simp only [List.infix_nil, decide_eq_true_eq]
  | cons c cs ih =>
    rw [containsSub, List.infix_cons_iff, Bool.or_eq_true, ih,
      List.isPrefixOf_iff_prefix]

theorem countSub_zero_of_not_mem {p y : List Char} {h : Char} (hp : p ≠ [])
    (hmem : h ∈ p) (hy : h ∉ y) : countSub p y = 0 := by
  rw [countSub_eq_zero_iff hp]
  intro hin
  exact hy (hin.subset hmem)

theorem countSub_short {p x : List Char} (h : x.length < p.length) : countSub p x = 0 := by
  induction x with
  | nil => rfl
  | cons c cs ih =>
    rw [countSub]
    have hnp : ¬ p.isPrefixOf (c :: cs) = true := by
      intro hpre
      have := (List.isPrefixOf_iff_prefix.mp hpre).length_le
      omega
    rw [if_neg hnp, ih (by simp at h ⊢; omega)]

theorem countSub_cons_ne {p : List Char} {h c : Char} (hph : p.head? = some h)
    (hne : h ≠ c) (t : List Char) : countSub p (c :: t) = countSub p t := by
  rw [countSub]
  have hnp : ¬ p.isPrefixOf (c :: t) = true := by
    intro hpre
    have hp2 := List.isPrefixOf_iff_prefix.mp hpre
    cases p with
    | nil => cases hph
    | cons x xs =>
      injection hph with hx
      subst hx
      rw [List.cons_prefix_cons] at hp2
      exact hne hp2.1
  rw [if_neg hnp, Nat.zero_add]

theorem mem_of_take {c : Char} {l : List Char} {n : Nat} (h : c ∈ l.take n) : c ∈ l :=
  (List.take_subset n l) h

theorem prefix_append_iff_of_le {p l b : List Char} (h : p.length ≤ l.length) :
    p <+: l ++ b ↔ p <+: l := by
  constructor
  · intro hp
    rw [List.prefix_iff_eq_take] at hp ⊢
    rw [List.take_append_eq_append_take] at hp
    have h0 : p.length - l.length = 0 := by omega
    rw [h0, List.take_zero, List.append_nil] at hp
    exact hp
  · intro hp
    exact hp.trans (List.prefix_append l b)

theorem countSub_append_head (p a b : List Char) (hp : p ≠ [])
    (hb : ∀ c, b.head? = some c → c ∉ p) :
    countSub p (a ++ b) = countSub p a + countSub p b := by
  induction a with
  | nil => simp [countSub]
  | cons c cs ih =>
    rw [List.cons_append, countSub, countSub, ih]
    have hiff : p <+: c :: (cs ++ b) ↔ p <+: c :: cs := by
      rcases Nat.lt_or_ge (c :: cs).length p.length with hlen | hlen
      · constructor
        · intro hpre
          exfalso
          cases b with
          | nil =>
            rw [List.append_nil] at hpre
            have := hpre.length_le
            simp at this hlen
            omega
          | cons d bs =>
            have hd : d ∉ p := hb d rfl
            apply hd
            rw [List.prefix_iff_eq_take] at hpre
            rw [hpre, show c :: (cs ++ d :: bs) = (c :: cs) ++ d :: bs from rfl,
              List.take_append_eq_append_take]
            apply List.mem_append_right
            obtain ⟨k, hk⟩ : ∃ k, p.length - (c :: cs).length = k + 1 :=
              ⟨p.length - (c :: cs).length - 1, by omega⟩
            rw [hk, List.take_succ_cons]
            exact List.mem_cons_self d _
        · intro hpre
          exfalso
          have := hpre.length_le
          omega
      · rw [show c :: (cs ++ b) = (c :: cs) ++ b from rfl]
        exact prefix_append_iff_of_le hlen
    by_cases hpre : p <+: c :: cs
    · rw [if_pos (List.isPrefixOf_iff_prefix.mpr (hiff.mpr hpre)),
        if_pos (List.isPrefixOf_iff_prefix.mpr hpre)]
      omega
    · rw [if_neg (fun h => hpre (hiff.mp (List.isPrefixOf_iff_prefix.mp h))),
        if_neg (fun h => hpre (List.isPrefixOf_iff_prefix.mp h))]
      omega

theorem mem_of_getLast?C {l : List Char} {c : Char} (h : l.getLast? = some c) : c ∈ l := by
  induction l with
  | nil => cases h
  | cons d ds ih =>
    cases ds with
    | nil =>
      injection h with h
      subst h
      exact List.mem_cons_self _ _
    | cons e es =>
      rw [List.getLast?_cons_cons] at h
      exact List.mem_cons_of_mem _ (ih h)

theorem prefix_append_long {q a b : List Char} (hq : q <+: a ++ b)
    (hlen : a.length ≤ q.length) : ∃ s, q = a ++ s := by
  rw [List.prefix_iff_eq_take, List.take_append_eq_append_take,
    List.take_of_length_le hlen] at hq
  exact ⟨_, hq⟩

theorem getLast?_exists_of_cons (e : Char) (a3 : List Char) :
    ∃ g, (e :: a3).getLast? = some g ∧ g ∈ e :: a3 := by
  induction a3 generalizing e with
  | nil => exact ⟨e, rfl, List.mem_cons_self _ _⟩
  | cons f a4 ih2 =>
    obtain ⟨g, hg, hgm⟩ := ih2 f
    exact ⟨g, by rw [List.getLast?_cons_cons]; exact hg, List.mem_cons_of_mem _ hgm⟩

theorem countSub_append_last (p : List Char) (hp : p ≠ []) :
    ∀ (a b : List Char), (∀ c, a.getLast? = some c → c ∉ p) →
    countSub p (a ++ b) = countSub p a + countSub p b := by
  intro a
  induction a with
  | nil => intro b _; simp [countSub]
  | cons c a2 ih =>
    intro b ha
    have ha2 : ∀ c2, a2.getLast? = some c2 → c2 ∉ p := by
      intro c2 hc2
      apply ha
      cases a2 with
      | nil => cases hc2
      | cons d a3 => rw [List.getLast?_cons_cons]; exact hc2
    rw [List.cons_append, countSub, countSub, ih b ha2]
    have hiff : p <+: c :: (a2 ++ b) ↔ p <+: c :: a2 := by
      cases p with
      | nil => exact absurd rfl hp
      | cons d p2 =>
        rw [List.cons_prefix_cons, List.cons_prefix_cons]
        constructor
        · rintro ⟨hd, hpre⟩
          subst hd
          refine ⟨rfl, ?_⟩
          rcases Nat.lt_or_ge a2.length p2.length with hlt | hle
          · exfalso
            obtain ⟨s, hs⟩ := prefix_append_long hpre (by omega)
            cases a2 with
            | nil =>
              exact ha d rfl (List.mem_cons_self _ _)
            | cons e a3 =>
              obtain ⟨g, hg, hgm⟩ := getLast?_exists_of_cons e a3
              apply ha2 g hg
              rw [hs]
              exact List.mem_cons_of_mem _ (List.mem_append_left s hgm)
          · exact (prefix_append_iff_of_le hle).mp hpre
        · rintro ⟨hd, hpre⟩
          subst hd
          exact ⟨rfl, hpre.trans (List.prefix_append a2 b)⟩
    by_cases hpre : p <+: c :: a2
    · rw [if_pos (List.isPrefixOf_iff_prefix.mpr (hiff.mpr hpre)),
        if_pos (List.isPrefixOf_iff_prefix.mpr hpre)]
      omega
    · rw [if_neg (fun h => hpre (hiff.mp (List.isPrefixOf_iff_prefix.mp h))),
        if_neg (fun h => hpre (List.isPrefixOf_iff_prefix.mp h))]
      omega

theorem countSub_zero_of_infix_zero {p y z : List Char} (hp : p ≠ []) (hyz : y <:+: z)
    (hz : countSub p z = 0) : countSub p y = 0 := by
  rw [countSub_eq_zero_iff hp] at hz ⊢
  intro h
  exact hz (h.trans hyz)

theorem drop_takeWhile (p : Char → Bool) (l : List Char) :
    l.drop (l.takeWhile p).length = l.dropWhile p := by
  have h := List.takeWhile_append_dropWhile p l
  calc l.drop (l.takeWhile p).length
      = (l.takeWhile p ++ l.dropWhile p).drop (l.takeWhile p).length := by rw [h]
    _ = l.dropWhile p := List.drop_left _ _

theorem dropWhile_nl (l : List Char) :
    l.dropWhile (fun ch => ch ≠ '\n') = [] ∨
      (l.dropWhile (fun ch => ch ≠ '\n')).head? = some '\n' := by
  induction l with
  | nil => exact Or.inl rfl
  | cons c cs ih =>
    by_cases hc : c = '\n'
    · right
      subst hc
      rw [List.dropWhile_cons]
      simp
    · rw [List.dropWhile_cons]
      have : (fun ch => decide (ch ≠ '\n')) c = true := by simp [hc]
      simp only [this, if_true]
      exact ih

theorem bulletStep_shape {l r : List Char} (h : bulletStep l = some r) :
    r = [] ∨ r.head? = some '\n' := by
  rw [bulletStep] at h
  simp only [Option.bind_eq_some, Option.map_eq_some'] at h
  obtain ⟨r1, h1, r2, h2, r3, h3, x, hx, hr⟩ := h
  obtain ⟨ht, hs, hne⟩ := takeNonEmpty_some hx
  subst hr
  rw [hs, ht, drop_takeWhile]
  exact dropWhile_nl r3

theorem bulletsLoop_shape : ∀ (n : Nat) (l : List Char), l.length ≤ n →
    (l = [] ∨ l.head? = some '\n') →
    (bulletsLoop l = [] ∨ (bulletsLoop l).head? = some '\n') := by
  intro n
  induction n with
  | zero =>
    intro l hl hinv
    have hx : l = [] := by
      cases l with
      | nil => rfl
      | cons c cs => simp at hl
    subst hx
    exact Or.inl rfl
  | succ k ih =>
    intro l hl hinv
    rw [bulletsLoop_unfold]
    rcases hs : bulletStep l with _ | r
    · exact hinv
    · simp only []
      have hlt := bulletStep_lt hs
      exact ih r (by omega) (bulletStep_shape hs)

theorem matchStaging_rest {l r : List Char} (h : matchStaging l = some r) :
    r = [] ∨ r.head? = some '\n' := by
  rw [matchStaging] at h
  simp only [Option.bind_eq_some, Option.map_eq_some'] at h
  obtain ⟨r1, h1, r2, h2, hr⟩ := h
  subst hr
  exact bulletsLoop_shape _ _ (le_refl _) (dropWhile_nl r2)

theorem matchStaging_marker1 (rest : List Char) :
    matchStaging ("*Staging URL:*".data ++ rest) ≠ none := by
  have h1 : matchLit "*Staging URL".data ("*Staging URL:*".data ++ rest) =
      some (':' :: '*' :: rest) := by
    rw [matchLit_some,
      show ("*Staging URL:*".data) = "*Staging URL".data ++ ':' :: '*' :: [] from rfl]
    simp
  have hn : matchLit "s:*".data (':' :: '*' :: rest) = none := by
    rw [show ("s:*".data) = 's' :: ':' :: '*' :: [] from rfl, matchLit]
    rw [if_neg (by decide)]
  have h2 : matchSColonStar (':' :: '*' :: rest) = some rest := by
    rw [matchSColonStar, hn]
    simp only []
    rw [matchLit_some]
    rfl
  rw [matchStaging, h1, Option.some_bind, h2, Option.map_some']
  simp

theorem matchStaging_marker2 (rest : List Char) :
    matchStaging ("*Staging URLs:*".data ++ rest) ≠ none := by
  have h1 : matchLit "*Staging URL".data ("*Staging URLs:*".data ++ rest) =
      some ('s' :: ':' :: '*' :: rest) := by
    rw [matchLit_some,
      show ("*Staging URLs:*".data) = "*Staging URL".data ++ 's' :: ':' :: '*' :: []
        from rfl]
    simp
  have h2 : matchSColonStar ('s' :: ':' :: '*' :: rest) = some rest := by
    rw [matchSColonStar]
    have hm : matchLit "s:*".data ('s' :: ':' :: '*' :: rest) = some rest := by
      rw [matchLit_some]
      rfl
    rw [hm]
  rw [matchStaging, h1, Option.some_bind, h2, Option.map_some']
  simp

theorem matchStaging_nl (t : List Char) : matchStaging ('\n' :: t) = none := by
  have h1 : matchLit "*Staging URL".data ('\n' :: t) = none := by
    rw [show ("*Staging URL".data) = '*' :: "Staging URL".data from rfl, matchLit]
    rw [if_neg (by decide)]
  rw [matchStaging, h1]
  rfl

theorem stripStagingL_nl (t : List Char) :
    stripStagingL ('\n' :: t) = '\n' :: stripStagingL t := by
  rw [stripStagingL_cons, matchStaging_nl]

theorem strip_prefix_transfer : ∀ (n : Nat) (x p : List Char), x.length ≤ n →
    '\n' ∉ p → p <+: stripStagingL x → p <+: x := by
  intro n
  induction n with
  | zero =>
    intro x p hl _ hp
    have hx : x = [] := by
      cases x with
      | nil => rfl
      | cons c cs => simp at hl
    subst hx
    exact hp
  | succ k ih =>
    intro x p hl hnl hp
    cases x with
    | nil => exact hp
    | cons c cs =>
      rcases hs : matchStaging (c :: cs) with _ | r
      · rw [stripStagingL_cons, hs] at hp
        simp only [] at hp
        cases p with
        | nil => exact List.nil_prefix
        | cons d p2 =>
          rw [List.cons_prefix_cons] at hp
          obtain ⟨hd, hp2⟩ := hp
          subst hd
          rw [List.cons_prefix_cons]
          refine ⟨rfl, ih cs p2 (by simp at hl; omega)
            (fun hmem => hnl (List.mem_cons_of_mem _ hmem)) hp2⟩
      · rw [stripStagingL_cons, hs] at hp
        simp only [] at hp
        rcases matchStaging_rest hs with hre | hre
        · subst hre
          have hp0 : p <+: ([] : List Char) := hp
          rw [List.prefix_nil.mp hp0]
          exact List.nil_prefix
        · cases r with
          | nil => simp at hre
          | cons rc rt =>
            rw [List.head?_cons] at hre
            injection hre with hre
            subst hre
            rw [stripStagingL_nl] at hp
            cases p with
            | nil => exact List.nil_prefix
            | cons d p2 =>
              rw [List.cons_prefix_cons] at hp
              obtain ⟨hd, _⟩ := hp
              subst hd
              exact absurd (List.mem_cons_self _ _) hnl

theorem countSub_strip : ∀ (n : Nat) (x p : List Char), x.length ≤ n → p ≠ [] →
    '\n' ∉ p → (∀ rest, matchStaging (p ++ rest) ≠ none) →
    countSub p (stripStagingL x) = 0 := by
  intro n
  induction n with
  | zero =>
    intro x p hl _ _ _
    have hx : x = [] := by
      cases x with
      | nil => rfl
      | cons c cs => simp at hl
    subst hx
    rfl
  | succ k ih =>
    intro x p hl hp hnl hm
    cases x with
    | nil => rfl
    | cons c cs =>
      rcases hs : matchStaging (c :: cs) with _ | r
      · rw [stripStagingL_cons, hs]
        simp only []
        rw [countSub]
        have hnp : ¬ p.isPrefixOf (c :: stripStagingL cs) = true := by
          intro hpre
          have h2 : p <+: stripStagingL (c :: cs) := by
            rw [stripStagingL_cons, hs]
            simp only []
            exact List.isPrefixOf_iff_prefix.mp hpre
          have hpx : p <+: c :: cs :=
            strip_prefix_transfer (c :: cs).length (c :: cs) p (le_refl _) hnl h2
          obtain ⟨rest, hrest⟩ := hpx
          exact hm rest (by rw [hrest]; exact hs)
        rw [if_neg hnp, ih cs p (by simp at hl; omega) hp hnl hm, Nat.zero_add]
      · rw [stripStagingL_cons, hs]
        simp only []
        have hlt := matchStaging_lt hs
        exact ih r p (by simp at hl; have h3 := hlt; simp at h3; omega) hp hnl hm

theorem countSub_strip_m1 (x : List Char) :
    countSub "*Staging URL:*".data (stripStagingL x) = 0 :=
  countSub_strip x.length x _ (le_refl _) (by decide) (by decide) matchStaging_marker1

theorem countSub_strip_m2 (x : List Char) :
    countSub "*Staging URLs:*".data (stripStagingL x) = 0 :=
  countSub_strip x.length x _ (le_refl _) (by decide) (by decide) matchStaging_marker2

theorem jsTrim_within (l : List Char) : jsTrim l <:+: l := by
  rw [jsTrim]
  have h1 : l.dropWhile jsWhitespace <:+ l := List.dropWhile_suffix _
  have h2 : (l.dropWhile jsWhitespace).reverse.dropWhile jsWhitespace <:+
      (l.dropWhile jsWhitespace).reverse := List.dropWhile_suffix _
  have h3 := List.reverse_prefix.mpr h2
  rw [List.reverse_reverse] at h3
  exact h3.isInfix.trans h1.isInfix

theorem jiraLink_data (t : String) :
    (jiraLink t).data =
      "<https://injective-labs.atlassian.net/browse/".data ++
        (t.data ++ '|' :: (t.data ++ ['>'])) := by
  rw [jiraLink, String.data_append, String.data_append, String.data_append,
    String.data_append]
  rw [show ("|".data) = ['|'] from rfl, show (">".data) = ['>'] from rfl]
  simp [List.append_assoc]

theorem ticket_char_cases {t : List Char} (ht : isTicketIdL t = true) {c : Char}
    (hc : c ∈ t) : c = 'I' ∨ c = 'L' ∨ c = '-' ∨ isDigitCh c = true := by
  obtain ⟨ds, hteq, _, _, hall⟩ := isTicketIdL_shape.mp ht
  subst hteq
  simp only [List.mem_cons] at hc
  rcases hc with rfl | hc2
  · exact Or.inl rfl
  rcases hc2 with rfl | hc3
  · exact Or.inr (Or.inl rfl)
  rcases hc3 with rfl | hc4
  · exact Or.inr (Or.inr (Or.inl rfl))
  · exact Or.inr (Or.inr (Or.inr (hall c hc4)))

theorem not_mem_ticket {t : List Char} (ht : isTicketIdL t = true) {c : Char}
    (h1 : c ≠ 'I') (h2 : c ≠ 'L') (h3 : c ≠ '-') (h4 : isDigitCh c = false) :
    c ∉ t := by
  intro hc
  rcases ticket_char_cases ht hc with h | h | h | h
  · exact h1 h
  · exact h2 h
  · exact h3 h
  · rw [h] at h4; cases h4

theorem not_mem_jiraLink (t : String) (ht : isTicketIdL t.data = true) {c : Char}
    (hbase : c ∉ "<https://injective-labs.atlassian.net/browse/".data)
    (h1 : c ≠ 'I') (h2 : c ≠ 'L') (h3 : c ≠ '-') (h4 : isDigitCh c = false)
    (h5 : c ≠ '|') (h6 : c ≠ '>') : c ∉ (jiraLink t).data := by
  rw [jiraLink_data]
  intro hm
  rcases List.mem_append.mp hm with hm | hm
  · exact hbase hm
  rcases List.mem_append.mp hm with hm | hm
  · exact not_mem_ticket ht h1 h2 h3 h4 hm
  rcases List.mem_cons.mp hm with rfl | hm
  · exact h5 rfl
  rcases List.mem_append.mp hm with hm | hm
  · exact not_mem_ticket ht h1 h2 h3 h4 hm
  · exact h6 (List.mem_singleton.mp hm)

theorem jiraLink_head (t : String) (ht : isTicketIdL t.data = true) :
    ∃ rest, (jiraLink t).data = '<' :: rest ∧ '<' ∉ rest := by
  rw [jiraLink_data,
    show ("<https://injective-labs.atlassian.net/browse/".data) =
      '<' :: "https://injective-labs.atlassian.net/browse/".data from rfl,
    List.cons_append]
  refine ⟨_, rfl, ?_⟩
  intro hm
  rcases List.mem_append.mp hm with hm | hm
  · exact absurd hm (by decide)
  rcases List.mem_append.mp hm with hm | hm
  · exact not_mem_ticket ht (by decide) (by decide) (by decide) (by decide) hm
  rcases List.mem_cons.mp hm with heq | hm
  · exact absurd heq (by decide)
  rcases List.mem_append.mp hm with hm | hm
  · exact not_mem_ticket ht (by decide) (by decide) (by decide) (by decide) hm
  · exact absurd (List.mem_singleton.mp hm) (by decide)

theorem jiraLink_ne_nil (t : String) (ht : isTicketIdL t.data = true) :
    (jiraLink t).data ≠ [] := by
  obtain ⟨rest, hre, _⟩ := jiraLink_head t ht
  rw [hre]
  simp

theorem pipe_prefix_eq : ∀ (t u X Y : List Char), '|' ∉ t → '|' ∉ u →
    (t ++ '|' :: X) <+: (u ++ '|' :: Y) → t = u := by
  intro t
  induction t with
  | nil =>
    intro u X Y _ hu hp
    cases u with
    | nil => rfl
    | cons d u2 =>
      rw [List.nil_append, List.cons_append, List.cons_prefix_cons] at hp
      exfalso
      apply hu
      rw [← hp.1]
      exact List.mem_cons_self _ _
  | cons c t2 ih =>
    intro u X Y ht hu hp
    cases u with
    | nil =>
      rw [List.cons_append, List.nil_append, List.cons_prefix_cons] at hp
      exfalso
      apply ht
      rw [← hp.1]
      exact List.mem_cons_self _ _
    | cons d u2 =>
      rw [List.cons_append, List.cons_append, List.cons_prefix_cons] at hp
      obtain ⟨hcd, hp2⟩ := hp
      rw [hcd, ih u2 X Y (fun hm => ht (List.mem_cons_of_mem _ hm))
        (fun hm => hu (List.mem_cons_of_mem _ hm)) hp2]

theorem countSub_link_link (t u : String) (ht : isTicketIdL t.data = true)
    (hu : isTicketIdL u.data = true) :
    countSub (jiraLink t).data (jiraLink u).data = if t = u then 1 else 0 := by
  obtain ⟨rest, hre, hnm⟩ := jiraLink_head u hu
  obtain ⟨restT, hreT, _⟩ := jiraLink_head t ht
  have hmemT : '<' ∈ (jiraLink t).data := by
    rw [hreT]
    exact List.mem_cons_self _ _
  have hz : countSub (jiraLink t).data rest = 0 :=
    countSub_zero_of_not_mem (jiraLink_ne_nil t ht) hmemT hnm
  rw [hre, countSub, hz]
  by_cases heq : t = u
  · subst heq
    have hself : (jiraLink t).data <+: '<' :: rest := by
      rw [← hre]
    rw [if_pos (List.isPrefixOf_iff_prefix.mpr hself), if_pos rfl]
  · rw [if_neg heq]
    have hnp : ¬ (jiraLink t).data <+: '<' :: rest := by
      intro hp
      apply heq
      apply String.ext
      rw [← hre, jiraLink_data, jiraLink_data, List.prefix_append_right_inj] at hp
      exact pipe_prefix_eq t.data u.data _ _
        (not_mem_ticket ht (by decide) (by decide) (by decide) (by decide))
        (not_mem_ticket hu (by decide) (by decide) (by decide) (by decide)) hp
    rw [if_neg (fun h => hnp (List.isPrefixOf_iff_prefix.mp h))]

theorem joinT_cons_cons (a b : List Char) (rest : List (List Char)) :
    joinT (a :: b :: rest) = a ++ (',' :: ' ' :: joinT (b :: rest)) := by
  rw [joinT, joinT, List.flatMap_cons]
  simp [List.append_assoc]

theorem joinT_singleton (a : List Char) : joinT [a] = a := by
  rw [joinT]
  simp

theorem joinT_mem {L : List (List Char)} {c : Char} (hc : c ∈ joinT L) :
    c = ',' ∨ c = ' ' ∨ ∃ a ∈ L, c ∈ a := by
  cases L with
  | nil => simp [joinT] at hc
  | cons a rest =>
    rw [joinT] at hc
    rcases List.mem_append.mp hc with h | h
    · exact Or.inr (Or.inr ⟨a, List.mem_cons_self _ _, h⟩)
    · obtain ⟨v, hv, hcv⟩ := List.mem_flatMap.mp h
      rcases List.mem_cons.mp hcv with rfl | hcv2
      · exact Or.inl rfl
      · rcases List.mem_cons.mp hcv2 with rfl | hcv3
        · exact Or.inr (Or.inl rfl)
        · exact Or.inr (Or.inr ⟨v, List.mem_cons_of_mem _ hv, hcv3⟩)

theorem newLinksStr_data (ts : List String) :
    (newLinksStr ts).data = joinT (ts.map (fun u => (jiraLink u).data)) := by
  rw [newLinksStr, joinSep_comma_data, List.map_map]
  rfl

theorem newLinksStr_head {ts : List String} (hne : ts ≠ [])
    (hall : ∀ u ∈ ts, isTicketIdL u.data = true) :
    ∃ rest2, (newLinksStr ts).data = '<' :: rest2 := by
  cases ts with
  | nil => exact absurd rfl hne
  | cons u us =>
    rw [newLinksStr_data, List.map_cons, joinT]
    obtain ⟨rest, hre, _⟩ := jiraLink_head u (hall u (List.mem_cons_self _ _))
    rw [hre, List.cons_append]
    exact ⟨_, rfl⟩

theorem newLinksStr_mem {ts : List String} (hall : ∀ u ∈ ts, isTicketIdL u.data = true)
    {c : Char} (hc : c ∈ (newLinksStr ts).data) :
    c = ',' ∨ c = ' ' ∨ ∃ u ∈ ts, c ∈ (jiraLink u).data := by
  rw [newLinksStr_data] at hc
  rcases joinT_mem hc with h | h | h
  · exact Or.inl h
  · exact Or.inr (Or.inl h)
  · obtain ⟨a, ha, hca⟩ := h
    obtain ⟨u, hu, hfu⟩ := List.mem_map.mp ha
    refine Or.inr (Or.inr ⟨u, hu, ?_⟩)
    rw [hfu]
    exact hca

theorem star_not_mem_links {ts : List String} (hall : ∀ u ∈ ts, isTicketIdL u.data = true) :
    '*' ∉ (newLinksStr ts).data := by
  intro hc
  rcases newLinksStr_mem hall hc with h | h | h
  · exact absurd h (by decide)
  · exact absurd h (by decide)
  · obtain ⟨u, hu, hcu⟩ := h
    exact not_mem_jiraLink u (hall u hu) (by decide) (by decide) (by decide) (by decide)
      (by decide) (by decide) (by decide) hcu

theorem countSub_links (t : String) (ht : isTicketIdL t.data = true) :
    ∀ (ts : List String), (∀ u ∈ ts, isTicketIdL u.data = true) → ts.Nodup →
    countSub (jiraLink t).data (joinT (ts.map (fun u => (jiraLink u).data))) =
      if t ∈ ts then 1 else 0 := by
  intro ts
  induction ts with
  | nil =>
    intro _ _
    simp [joinT, countSub]
  | cons u us ih =>
    intro hall hnd
    have hu : isTicketIdL u.data = true := hall u (List.mem_cons_self _ _)
    have hallus : ∀ v ∈ us, isTicketIdL v.data = true :=
      fun v hv => hall v (List.mem_cons_of_mem _ hv)
    cases us with
    | nil =>
      rw [List.map_cons, List.map_nil, joinT_singleton, countSub_link_link t u ht hu]
      by_cases heq : t = u
      · rw [if_pos heq, if_pos (by rw [heq]; exact List.mem_cons_self _ _)]
      · rw [if_neg heq, if_neg (fun hm => heq (List.mem_singleton.mp hm))]
    | cons v us2 =>
      have hj : joinT ((u :: v :: us2).map (fun w => (jiraLink w).data)) =
          (jiraLink u).data ++
            (',' :: ' ' :: joinT ((v :: us2).map (fun w => (jiraLink w).data))) := by
        rw [List.map_cons, List.map_cons, joinT_cons_cons]
      rw [hj]
      have hPne := jiraLink_ne_nil t ht
      obtain ⟨restT, hreT, _⟩ := jiraLink_head t ht
      have hph : (jiraLink t).data.head? = some '<' := by rw [hreT]; rfl
      have hbc : ∀ c,
          (',' :: ' ' :: joinT ((v :: us2).map (fun w => (jiraLink w).data))).head? =
            some c → c ∉ (jiraLink t).data := by
        intro c hc
        rw [List.head?_cons] at hc
        injection hc with hc
        subst hc
        exact not_mem_jiraLink t ht (by decide) (by decide) (by decide) (by decide)
          (by decide) (by decide) (by decide)
      rw [countSub_append_head _ _ _ hPne hbc,
        countSub_cons_ne hph (by decide), countSub_cons_ne hph (by decide),
        countSub_link_link t u ht hu,
        ih hallus (List.nodup_cons.mp hnd).2]
      by_cases heq : t = u
      · subst heq
        have hnm : t ∉ v :: us2 := (List.nodup_cons.mp hnd).1
        rw [if_pos rfl, if_neg hnm, if_pos (List.mem_cons_self _ _)]
      · rw [if_neg heq]
        by_cases hm : t ∈ v :: us2
        · rw [if_pos hm, if_pos (List.mem_cons_of_mem _ hm)]
        · rw [if_neg hm, if_neg (fun h => by
            rcases List.mem_cons.mp h with h2 | h2
            · exact heq h2
            · exact hm h2)]

theorem matchLit_none_iff {p l : List Char} : matchLit p l = none ↔ ¬ p <+: l := by
  constructor
  · intro h hp
    obtain ⟨r, hr⟩ := hp
    rw [matchLit_some.mpr hr.symm] at h
    cases h
  · intro hp
    rcases hm : matchLit p l with _ | r
    · rfl
    · exact absurd ⟨r, (matchLit_some.mp hm).symm⟩ hp

theorem replaceJiraField_struct (links : List Char) :
    ∀ l : List Char, containsSub "*Jira tickets:* ".data l = true →
    ∃ A B, l = A ++ ("*Jira tickets:* ".data ++ B) ∧
      replaceJiraField links l =
        A ++ ("*Jira tickets:* ".data ++ (B.takeWhile (fun ch => ch ≠ '\n') ++
          (',' :: ' ' :: (links ++ B.drop (B.takeWhile (fun ch => ch ≠ '\n')).length)))) := by
  intro l
  induction l with
  | nil =>
    intro h
    exact absurd h (by decide)
  | cons c cs ih =>
    intro h
    rcases hm : matchLit "*Jira tickets:* ".data (c :: cs) with _ | r1
    · have h2 : containsSub "*Jira tickets:* ".data cs = true := by
        rw [containsSub, Bool.or_eq_true] at h
        rcases h with h | h
        · exact absurd (List.isPrefixOf_iff_prefix.mp h) (matchLit_none_iff.mp hm)
        · exact h
      obtain ⟨A, B, hl, hr⟩ := ih h2
      refine ⟨c :: A, B, ?_, ?_⟩
      · rw [List.cons_append, hl]
      · rw [replaceJiraField, hm]
        simp only []
        rw [hr]
        rfl
    · have hl : c :: cs = "*Jira tickets:* ".data ++ r1 := matchLit_some.mp hm
      refine ⟨[], r1, by rw [List.nil_append]; exact hl, ?_⟩
      rw [replaceJiraField, hm]
      simp only []
      rw [List.nil_append]
      simp [List.append_assoc]

theorem countSub_insert (P X links remT : List Char) (hP : P ≠ [])
    (hPh : ∀ c, P.head? = some c → c ≠ ',' ∧ c ≠ ' ')
    (hcomma : ',' ∉ P) (hnl : '\n' ∉ P)
    (hrem : remT = [] ∨ remT.head? = some '\n') :
    countSub P (X ++ (',' :: ' ' :: (links ++ remT))) =
      countSub P (X ++ remT) + countSub P links := by
  obtain ⟨p0, P2, hPs⟩ : ∃ p0 P2, P = p0 :: P2 := by
    cases P with
    | nil => exact absurd rfl hP
    | cons a b => exact ⟨a, b, rfl⟩
  have hph : P.head? = some p0 := by rw [hPs]; rfl
  obtain ⟨hp1, hp2⟩ := hPh p0 hph
  have hbc : ∀ c, (',' :: ' ' :: (links ++ remT)).head? = some c → c ∉ P := by
    intro c hc
    rw [List.head?_cons] at hc
    injection hc with hc
    subst hc
    exact hcomma
  rw [countSub_append_head P X _ hP hbc, countSub_cons_ne hph hp1,
    countSub_cons_ne hph hp2]
  rcases hrem with hre | hre
  · subst hre
    rw [List.append_nil, List.append_nil]
  · have hb2 : ∀ c, remT.head? = some c → c ∉ P := by
      intro c hc
      rw [hre] at hc
      injection hc with hc
      subst hc
      exact hnl
    rw [countSub_append_head P links remT hP hb2,
      countSub_append_head P X remT hP hb2]
    omega

theorem stagingLine_data (url : String) :
    (stagingLine url).data =
      "*Staging URL:* <".data ++ (url.data ++ '|' :: (url.data ++ ['>'])) := by
  rw [stagingLine, String.data_append, String.data_append, String.data_append,
    String.data_append]
  rw [show ("|".data) = ['|'] from rfl, show (">".data) = ['>'] from rfl]
  simp [List.append_assoc]

theorem stagingPhase_data (ct url : String) (hurl : url.data ≠ []) :
    (stagingPhase ct url).data =
      jsTrim (stripStagingL ct.data) ++ ('\n' :: (stagingLine url).data) := by
  rw [stagingPhase, if_neg hurl, String.data_append, String.data_append]
  rw [show (("\n" : String).data) = ['\n'] from rfl]
  simp [List.append_assoc]

theorem urlpart_no_star {url : String} (hstar : '*' ∉ url.data) :
    '*' ∉ url.data ++ '|' :: (url.data ++ ['>']) := by
  intro hm
  rcases List.mem_append.mp hm with hm | hm
  · exact hstar hm
  rcases List.mem_cons.mp hm with heq | hm
  · exact absurd heq (by decide)
  rcases List.mem_append.mp hm with hm | hm
  · exact hstar hm
  · exact absurd (List.mem_singleton.mp hm) (by decide)

theorem countSub_stagingLine_m1 (url : String) (hstar : '*' ∉ url.data) :
    countSub "*Staging URL:*".data (stagingLine url).data = 1 := by
  rw [stagingLine_data]
  have hlast : ∀ c, ("*Staging URL:* <".data).getLast? = some c →
      c ∉ "*Staging URL:*".data := by
    intro c hc
    rw [show (("*Staging URL:* <".data).getLast?) = some '<' from by decide] at hc
    injection hc with hc
    subst hc
    decide
  rw [countSub_append_last "*Staging URL:*".data (by decide) "*Staging URL:* <".data
    (url.data ++ '|' :: (url.data ++ ['>'])) hlast]
  rw [show countSub "*Staging URL:*".data "*Staging URL:* <".data = 1 from by decide]
  rw [countSub_zero_of_not_mem (by decide)
    (show '*' ∈ "*Staging URL:*".data from by decide) (urlpart_no_star hstar)]

theorem countSub_stagingLine_m2 (url : String) (hstar : '*' ∉ url.data) :
    countSub "*Staging URLs:*".data (stagingLine url).data = 0 := by
  rw [stagingLine_data]
  have hlast : ∀ c, ("*Staging URL:* <".data).getLast? = some c →
      c ∉ "*Staging URLs:*".data := by
    intro c hc
    rw [show (("*Staging URL:* <".data).getLast?) = some '<' from by decide] at hc
    injection hc with hc
    subst hc
    decide
  rw [countSub_append_last "*Staging URLs:*".data (by decide) "*Staging URL:* <".data
    (url.data ++ '|' :: (url.data ++ ['>'])) hlast]
  rw [show countSub "*Staging URLs:*".data "*Staging URL:* <".data = 0 from by decide]
  rw [countSub_zero_of_not_mem (by decide)
    (show '*' ∈ "*Staging URLs:*".data from by decide) (urlpart_no_star hstar)]

theorem stagingPhase_count_m1 (ct url : String) (hurl : url.data ≠ [])
    (hstar : '*' ∉ url.data) :
    countSub "*Staging URL:*".data (stagingPhase ct url).data = 1 := by
  rw [stagingPhase_data ct url hurl]
  have hbc : ∀ c, ('\n' :: (stagingLine url).data).head? = some c →
      c ∉ "*Staging URL:*".data := by
    intro c hc
    rw [List.head?_cons] at hc
    injection hc with hc
    subst hc
    decide
  rw [countSub_append_head _ _ _ (by decide) hbc,
    countSub_zero_of_infix_zero (by decide) (jsTrim_within _) (countSub_strip_m1 ct.data),
    countSub_cons_ne (show ("*Staging URL:*".data).head? = some '*' from rfl) (by decide),
    countSub_stagingLine_m1 url hstar]

theorem stagingPhase_count_m2 (ct url : String) (hurl : url.data ≠ [])
    (hstar : '*' ∉ url.data) :
    countSub "*Staging URLs:*".data (stagingPhase ct url).data = 0 := by
  rw [stagingPhase_data ct url hurl]
  have hbc : ∀ c, ('\n' :: (stagingLine url).data).head? = some c →
      c ∉ "*Staging URLs:*".data := by
    intro c hc
    rw [List.head?_cons] at hc
    injection hc with hc
    subst hc
    decide
  rw [countSub_append_head _ _ _ (by decide) hbc,
    countSub_zero_of_infix_zero (by decide) (jsTrim_within _) (countSub_strip_m2 ct.data),
    countSub_cons_ne (show ("*Staging URLs:*".data).head? = some '*' from rfl) (by decide),
    countSub_stagingLine_m2 url hstar]

theorem stagingLine_suffix_phase (ct url : String) (hurl : url.data ≠ []) :
    (stagingLine url).data <:+ (stagingPhase ct url).data := by
  rw [stagingPhase_data ct url hurl]
  exact (List.suffix_cons '\n' _).trans (List.suffix_append _ _)

theorem stagingLine_no_nl (url : String) (hnl : '\n' ∉ url.data) :
    '\n' ∉ (stagingLine url).data := by
  rw [stagingLine_data]
  intro hm
  rcases List.mem_append.mp hm with hm | hm
  · exact absurd hm (by decide)
  rcases List.mem_append.mp hm with hm | hm
  · exact hnl hm
  rcases List.mem_cons.mp hm with heq | hm
  · exact absurd heq (by decide)
  rcases List.mem_append.mp hm with hm | hm
  · exact hnl hm
  · exact absurd (List.mem_singleton.mp hm) (by decide)

theorem stagingLine_ne_nil (url : String) : (stagingLine url).data ≠ [] := by
  rw [stagingLine_data,
    show ("*Staging URL:* <".data) = '*' :: "Staging URL:* <".data from rfl]
  simp

theorem updateMessageText_eq (ct url : String) (newT existT : List String) :
    updateMessageText ct url newT existT =
      if ticketsToAdd newT existT = [] then stagingPhase ct url
      else if strIncludes (stagingPhase ct url) "Jira tickets:" then
        (⟨replaceJiraField (newLinksStr (ticketsToAdd newT existT)).data
          (stagingPhase ct url).data⟩ : String)
      else stagingPhase ct url ++ "\n*Jira tickets:* " ++
        newLinksStr (ticketsToAdd newT existT) := rfl

/-- C2 (amended): for every root text, nonempty staging URL containing no
newline and no `*`, canonical duplicate-free new-ticket list and
existing-ticket list, provided every `Jira tickets:` occurrence in the
staged text lies inside a well-formed `*Jira tickets:* ` field, the text
produced by `updateMessage` has exactly one staging-URL field — the line
for the current staging URL (replacement, never accumulation) — and the
link of each well-formed ticket id occurs once more than before exactly
when the ticket is in the set difference newTickets minus existingTickets
(tickets already in the existing set are never appended again). -/
theorem updateMessage_claim (ct url : String) (newT existT : List String)
    (hurl : url.data ≠ [])
    (hurlch : ∀ c ∈ url.data, c ≠ '\n' ∧ c ≠ '*')
    (htk : ∀ u ∈ newT, isTicketIdL u.data = true)
    (hnd : newT.Nodup)
    (hwf : countSub "Jira tickets:".data (stagingPhase ct url).data =
      countSub "*Jira tickets:* ".data (stagingPhase ct url).data) :
    countSub "*Staging URL:*".data (updateMessageText ct url newT existT).data = 1 ∧
    countSub "*Staging URLs:*".data (updateMessageText ct url newT existT).data = 0 ∧
    containsSub (stagingLine url).data
      (updateMessageText ct url newT existT).data = true ∧
    (∀ t : String, isTicketIdL t.data = true →
      countSub (jiraLink t).data (updateMessageText ct url newT existT).data =
        countSub (jiraLink t).data (stagingPhase ct url).data +
          (if t ∈ ticketsToAdd newT existT then 1 else 0)) := by
  have hstar : '*' ∉ url.data := fun hm => (hurlch '*' hm).2 rfl
  have hnlu : '\n' ∉ url.data := fun hm => (hurlch '\n' hm).1 rfl
  by_cases hadd : ticketsToAdd newT existT = []
  · have hres : updateMessageText ct url newT existT = stagingPhase ct url := by
      rw [updateMessageText_eq, if_pos hadd]
    rw [hres]
    refine ⟨stagingPhase_count_m1 ct url hurl hstar,
      stagingPhase_count_m2 ct url hurl hstar, ?_, ?_⟩
    · rw [containsSub_iff_occurs (stagingLine_ne_nil url)]
      exact (stagingLine_suffix_phase ct url hurl).isInfix
    · intro t htt
      rw [hadd]
      simp
  · have halltk : ∀ u ∈ ticketsToAdd newT existT, isTicketIdL u.data = true :=
      fun u hu => htk u (List.mem_filter.mp hu).1
    have hndAdd : (ticketsToAdd newT existT).Nodup := List.Nodup.filter _ hnd
    by_cases hinc : strIncludes (stagingPhase ct url) "Jira tickets:" = true
    · -- replace-existing-field branch
      have hresS : updateMessageText ct url newT existT =
          (⟨replaceJiraField (newLinksStr (ticketsToAdd newT existT)).data
            (stagingPhase ct url).data⟩ : String) := by
        rw [updateMessageText_eq, if_neg hadd, if_pos hinc]
      have hincT : containsSub "Jira tickets:".data (stagingPhase ct url).data = true :=
        hinc
      have hcount1 : 1 ≤ countSub "*Jira tickets:* ".data (stagingPhase ct url).data := by
        rw [← hwf]
        exact (countSub_pos_iff (by decide) _).mpr
          ((containsSub_iff_occurs (by decide) _).mp hincT)
      have hcontF : containsSub "*Jira tickets:* ".data (stagingPhase ct url).data =
          true :=
        (containsSub_iff_occurs (by decide) _).mpr ((countSub_pos_iff (by decide) _).mp
          hcount1)
      obtain ⟨A, B, hlz, hrz⟩ :=
        replaceJiraField_struct (newLinksStr (ticketsToAdd newT existT)).data
          (stagingPhase ct url).data hcontF
      have hdrop : B.drop (B.takeWhile (fun ch => ch ≠ '\n')).length =
          B.dropWhile (fun ch => ch ≠ '\n') := drop_takeWhile _ B
      obtain ⟨rmt, hrmt⟩ : ∃ x, x = B.drop (B.takeWhile (fun ch => ch ≠ '\n')).length :=
        ⟨_, rfl⟩
      obtain ⟨tkn, htkn⟩ : ∃ x, x = B.takeWhile (fun ch => ch ≠ '\n') := ⟨_, rfl⟩
      rw [← hrmt, ← htkn] at hrz
      have hBsplit : tkn ++ rmt = B := by
        rw [htkn, hrmt, hdrop]
        exact List.takeWhile_append_dropWhile _ B
      have hrem : rmt = [] ∨ rmt.head? = some '\n' := by
        rw [hrmt, hdrop]
        exact dropWhile_nl B
      have hresD : (updateMessageText ct url newT existT).data =
          (A ++ ("*Jira tickets:* ".data ++ tkn)) ++
            (',' :: ' ' :: ((newLinksStr (ticketsToAdd newT existT)).data ++ rmt)) := by
        rw [hresS]
        show replaceJiraField (newLinksStr (ticketsToAdd newT existT)).data
          (stagingPhase ct url).data = _
        rw [hrz]
        simp [List.append_assoc]
      have ht1X : (stagingPhase ct url).data =
          (A ++ ("*Jira tickets:* ".data ++ tkn)) ++ rmt := by
        rw [hlz, ← hBsplit]
        simp [List.append_assoc]
      have hkey : ∀ P : List Char, P ≠ [] →
          (∀ c, P.head? = some c → c ≠ ',' ∧ c ≠ ' ') → ',' ∉ P → '\n' ∉ P →
          countSub P (updateMessageText ct url newT existT).data =
            countSub P (stagingPhase ct url).data +
              countSub P (newLinksStr (ticketsToAdd newT existT)).data := by
        intro P hP hPh hcomma hnlP
        rw [hresD, ht1X, countSub_insert P _ _ _ hP hPh hcomma hnlP hrem]
      refine ⟨?_, ?_, ?_, ?_⟩
      · rw [hkey "*Staging URL:*".data (by decide) ?hh (by decide) (by decide),
          stagingPhase_count_m1 ct url hurl hstar,
          countSub_zero_of_not_mem (by decide)
            (show '*' ∈ "*Staging URL:*".data from by decide)
            (star_not_mem_links halltk)]
        case hh =>
          intro c hc
          rw [show (("*Staging URL:*".data).head?) = some '*' from rfl] at hc
          injection hc with hc
          subst hc
          exact ⟨by decide, by decide⟩
      · rw [hkey "*Staging URLs:*".data (by decide) ?hh2 (by decide) (by decide),
          stagingPhase_count_m2 ct url hurl hstar,
          countSub_zero_of_not_mem (by decide)
            (show '*' ∈ "*Staging URLs:*".data from by decide)
            (star_not_mem_links halltk)]
        case hh2 =>
          intro c hc
          rw [show (("*Staging URLs:*".data).head?) = some '*' from rfl] at hc
          injection hc with hc
          subst hc
          exact ⟨by decide, by decide⟩
      · rw [containsSub_iff_occurs (stagingLine_ne_nil url)]
        have hSLsuf : (stagingLine url).data <:+ (stagingPhase ct url).data :=
          stagingLine_suffix_phase ct url hurl
        have hremsuf : rmt <:+ (stagingPhase ct url).data := by
          rw [ht1X]
          exact List.suffix_append _ _
        rcases List.suffix_or_suffix_of_suffix hSLsuf hremsuf with h | h
        · have hsufR : rmt <:+ (updateMessageText ct url newT existT).data := by
            rw [hresD]
            have h1 : rmt <:+ (newLinksStr (ticketsToAdd newT existT)).data ++ rmt :=
              List.suffix_append _ _
            have h2 : (newLinksStr (ticketsToAdd newT existT)).data ++ rmt <:+
                ',' :: ' ' :: ((newLinksStr (ticketsToAdd newT existT)).data ++ rmt) :=
              (List.suffix_cons _ _).trans (List.suffix_cons _ _)
            exact (h1.trans h2).trans (List.suffix_append _ _)
          exact (h.trans hsufR).isInfix
        · rcases hrem with hre | hre
          · rw [hre] at ht1X
            rw [List.append_nil] at ht1X
            have hpre : (stagingPhase ct url).data <+:
                (updateMessageText ct url newT existT).data := by
              rw [hresD, ← ht1X]
              exact List.prefix_append _ _
            exact hSLsuf.isInfix.trans hpre.isInfix
          · exfalso
            have hnlin : '\n' ∈ rmt := by
              rcases hd : rmt with _ | ⟨rc, rt⟩
              · rw [hd] at hre
                cases hre
              · rw [hd] at hre
                rw [List.head?_cons] at hre
                injection hre with hre
                subst hre
                exact List.mem_cons_self _ _
            exact stagingLine_no_nl url hnlu (h.subset hnlin)
      · intro t htt
        obtain ⟨restT, hreT, hltT⟩ := jiraLink_head t htt
        have hPne := jiraLink_ne_nil t htt
        have hph : (jiraLink t).data.head? = some '<' := by rw [hreT]; rfl
        rw [hkey (jiraLink t).data hPne ?hh3
            (not_mem_jiraLink t htt (by decide) (by decide) (by decide) (by decide)
              (by decide) (by decide) (by decide))
            (not_mem_jiraLink t htt (by decide) (by decide) (by decide) (by decide)
              (by decide) (by decide) (by decide)),
          newLinksStr_data, countSub_links t htt _ halltk hndAdd]
        case hh3 =>
          intro c hc
          rw [hph] at hc
          injection hc with hc
          subst hc
          exact ⟨by decide, by decide⟩
    · -- create-new-field branch
      have hresS : updateMessageText ct url newT existT =
          stagingPhase ct url ++ "\n*Jira tickets:* " ++
            newLinksStr (ticketsToAdd newT existT) := by
        rw [updateMessageText_eq, if_neg hadd, if_neg hinc]
      have hdata : (updateMessageText ct url newT existT).data =
          (stagingPhase ct url).data ++ ('\n' :: ("*Jira tickets:* ".data ++
            (newLinksStr (ticketsToAdd newT existT)).data)) := by
        rw [hresS, String.data_append, String.data_append,
          show (("\n*Jira tickets:* " : String).data) =
            '\n' :: "*Jira tickets:* ".data from rfl]
        simp [List.append_assoc]
      obtain ⟨r2, hr2⟩ := newLinksStr_head hadd halltk
      have hbL : ∀ c, ((newLinksStr (ticketsToAdd newT existT)).data).head? = some c →
          c = '<' := by
        intro c hc
        rw [hr2, List.head?_cons] at hc
        injection hc with hc
        exact hc.symm
      refine ⟨?_, ?_, ?_, ?_⟩
      · rw [hdata]
        have hbc : ∀ c, ('\n' :: ("*Jira tickets:* ".data ++
            (newLinksStr (ticketsToAdd newT existT)).data)).head? = some c →
            c ∉ "*Staging URL:*".data := by
          intro c hc
          rw [List.head?_cons] at hc
          injection hc with hc
          subst hc
          decide
        rw [countSub_append_head _ _ _ (by decide) hbc,
          stagingPhase_count_m1 ct url hurl hstar,
          countSub_cons_ne (show ("*Staging URL:*".data).head? = some '*' from rfl)
            (by decide),
          countSub_append_head _ _ _ (by decide)
            (fun c hc => by rw [hbL c hc]; decide),
          show countSub "*Staging URL:*".data "*Jira tickets:* ".data = 0 from by decide,
          countSub_zero_of_not_mem (by decide)
            (show '*' ∈ "*Staging URL:*".data from by decide)
            (star_not_mem_links halltk)]
      · rw [hdata]
        have hbc : ∀ c, ('\n' :: ("*Jira tickets:* ".data ++
            (newLinksStr (ticketsToAdd newT existT)).data)).head? = some c →
            c ∉ "*Staging URLs:*".data := by
          intro c hc
          rw [List.head?_cons] at hc
          injection hc with hc
          subst hc
          decide
        rw [countSub_append_head _ _ _ (by decide) hbc,
          stagingPhase_count_m2 ct url hurl hstar,
          countSub_cons_ne (show ("*Staging URLs:*".data).head? = some '*' from rfl)
            (by decide),
          countSub_append_head _ _ _ (by decide)
            (fun c hc => by rw [hbL c hc]; decide),
          show countSub "*Staging URLs:*".data "*Jira tickets:* ".data = 0 from by decide,
          countSub_zero_of_not_mem (by decide)
            (show '*' ∈ "*Staging URLs:*".data from by decide)
            (star_not_mem_links halltk)]
      · rw [containsSub_iff_occurs (stagingLine_ne_nil url), hdata]
        exact (stagingLine_suffix_phase ct url hurl).isInfix.trans
          (List.prefix_append _ _).isInfix
      · intro t htt
        obtain ⟨restT, hreT, hltT⟩ := jiraLink_head t htt
        have hPne := jiraLink_ne_nil t htt
        have hph : (jiraLink t).data.head? = some '<' := by rw [hreT]; rfl
        have hmemT : '<' ∈ (jiraLink t).data := by
          rw [hreT]
          exact List.mem_cons_self _ _
        have hnlP : '\n' ∉ (jiraLink t).data :=
          not_mem_jiraLink t htt (by decide) (by decide) (by decide) (by decide)
            (by decide) (by decide) (by decide)
        rw [hdata]
        have hbc : ∀ c, ('\n' :: ("*Jira tickets:* ".data ++
            (newLinksStr (ticketsToAdd newT existT)).data)).head? = some c →
            c ∉ (jiraLink t).data := by
          intro c hc
          rw [List.head?_cons] at hc
          injection hc with hc
          subst hc
          exact hnlP
        have hlastF : ∀ c, ("*Jira tickets:* ".data).getLast? = some c →
            c ∉ (jiraLink t).data := by
          intro c hc
          rw [show (("*Jira tickets:* ".data).getLast?) = some ' ' from by decide] at hc
          injection hc with hc
          subst hc
          exact not_mem_jiraLink t htt (by decide) (by decide) (by decide) (by decide)
            (by decide) (by decide) (by decide)
        have hzF : countSub (jiraLink t).data "*Jira tickets:* ".data = 0 :=
          countSub_zero_of_not_mem hPne hmemT (by decide)
        rw [countSub_append_head _ _ _ hPne hbc,
          countSub_cons_ne hph (by decide),
          countSub_append_last (jiraLink t).data hPne "*Jira tickets:* ".data _ hlastF,
          hzF, newLinksStr_data, countSub_links t htt _ halltk hndAdd]
        omega

theorem updateMessage_claim_witness :
    ("https://s" : String).data ≠ [] ∧
    (∀ c ∈ ("https://s" : String).data, c ≠ '\n' ∧ c ≠ '*') ∧
    (∀ u ∈ (["IL-234"] : List String), isTicketIdL u.data = true) ∧
    (["IL-234"] : List String).Nodup ∧
    countSub "Jira tickets:".data (stagingPhase "hello" "https://s").data =
      countSub "*Jira tickets:* ".data (stagingPhase "hello" "https://s").data ∧
    countSub "*Staging URL:*".data
      (updateMessageText "hello" "https://s" ["IL-234"] []).data = 1 := by
  refine ⟨by decide, by decide, by decide, by decide, by decide, ?_⟩
  exact (updateMessage_claim "hello" "https://s" ["IL-234"] [] (by decide) (by decide)
    (by decide) (by decide) (by decide)).1

/-- C2 counterexample: a root text containing `Jira tickets:` outside a
well-formed `*Jira tickets:* ` field makes the update branch into the
field-replace path, whose regex never matches, so the new ticket is
silently dropped instead of appended. -/
theorem updateMessage_counterexample :
    updateMessageText "hello\nJira tickets: see above" "https://s" ["IL-234"] [] =
      "hello\nJira tickets: see above\n*Staging URL:* <https://s|https://s>" ∧
    ticketsToAdd ["IL-234"] [] = ["IL-234"] ∧
    strIncludes
      (updateMessageText "hello\nJira tickets: see above" "https://s" ["IL-234"] [])
      "IL-234" = false := by
  refine ⟨by decide, by decide, by decide⟩

end GithubFe
